import Mathlib

/-
Verification of the core of a layered, block-addressable file-system
library (superblock validation, bit-packed data-block bitmap, inode
table, directory entries, inode-level read/write).

The definitions below are a shallow embedding of the Rust sources
  a_block_support.rs, b_inode_support.rs, c_dirs_support.rs,
  e_inode_RW_support.rs.
Modelling conventions, justified by the external API crate contracts
(Device, Block, serialization) that the sources build on:

* Machine integers (u64) are modelled as Nat.  Where the source relies
  on u64 wrap-around (the bound checks of the form `i > n - 1`), the
  wrap-around decrement is made explicit (`pred64`).
* Block serialization round-trips (`serialize_into` then
  `deserialize_from` recovers the value), so the inode region is
  modelled as a list of DInode records indexed by inode number (the
  block/byte packing `inodestart + i/IPB`, byte `(i mod IPB) *
  DINODE_SIZE` is a bijection between inode numbers and slots), the
  bitmap region as one flat list of bytes (blocks of the region are
  contiguous `block_size`-byte arrays), and the data region as a list
  of blocks indexed relative to `datastart`.  Directory-layer
  operations view a data block as its list of `block_size /
  DIRENTRY_SIZE` directory-entry slots; byte-level operations view it
  as a list of bytes.  A zeroed block deserializes to directory
  entries with `inum = 0`.
* The source computes the block count `ceil(size / block_size)` with
  f64 arithmetic (`(size as f64 / block_size as f64).ceil()`).  For
  arguments below 2^53 the conversion to f64 is exact and the result
  equals the integer ceiling `(size + block_size - 1) / block_size`,
  which is what `ceilDiv` defines; theorems whose code path evaluates
  this bound carry hypotheses keeping the quantities in the exact
  range.  The rounding that the f64 path performs on larger arguments
  is modelled separately (`roundF64`) to exhibit the divergence.
-/

namespace CplFs

/-- File type tag of an on-disk inode; `TFree` marks an unallocated slot. -/
inductive FType where
  | TFree
  | TFile
  | TDir
  deriving DecidableEq, Repr

/-- Error kinds of the file-system layers.  The source nests one error enum
per layer and wraps the layer below through a variant; the taxonomy is
flattened into a single type here. -/
inductive FSErr where
  | InvalidSuperBlock
  | IncompatibleDeviceSuperBlock
  | DataIndexOutOfBounds
  | BlockIsAlreadyFree
  | NoFreeDataBlock
  | InodeIndexOutOfBounds
  | InodeAlreadyFree
  | NoFreeInode
  | NoEntryFoundForName
  | InodeWrongType
  | InvalidEntryName
  | DirectoryInodeNotInUse
  | InodeBlocksFull
  | IndexOutOfBounds
  | BufTooSmall
  | WriteTooLarge
  deriving DecidableEq, Repr

/-- SuperBlock record, fields as in the API crate (all u64 counts). -/
structure SuperBlock where
  block_size : Nat
  nblocks : Nat
  ninodes : Nat
  inodestart : Nat
  ndatablocks : Nat
  bmapstart : Nat
  datastart : Nat
  deriving DecidableEq, Repr

/-- Wrapping u64 decrement: the value of the Rust expression `n - 1` on a
u64 in release mode.  The sources bound-check indices with comparisons of
the form `i > n - 1`. -/
def pred64 (n : Nat) : Nat := (n + (2 ^ 64 - 1)) % 2 ^ 64

/-- Validity predicate for a superblock, transcribed from
`a_block_support.rs::sb_valid`.  `DSZ` stands for the external constant
`DINODE_SIZE` (the serialized size of a DInode, fixed by the API crate). -/
def sb_valid (DSZ : Nat) (sb : SuperBlock) : Bool :=
  if ¬ (sb.inodestart < sb.bmapstart) then false
  else if ¬ (sb.bmapstart < sb.datastart) then false
  else
    let order_cond3 : Bool := decide (sb.inodestart > 0)
    let inode_cond : Bool :=
      decide (DSZ * sb.ninodes ≤ (sb.bmapstart - sb.inodestart) * sb.block_size)
    let hold_cond1 : Bool :=
      decide ((sb.datastart - sb.bmapstart) * sb.block_size * 8 ≥ sb.ndatablocks)
    let hold_cond2 : Bool := decide (sb.datastart + sb.ndatablocks ≤ sb.nblocks)
    let fit_cond1 : Bool :=
      decide (1 + (sb.bmapstart - sb.inodestart) + (sb.datastart - sb.bmapstart)
        + sb.ndatablocks ≤ sb.nblocks)
    order_cond3 && hold_cond1 && hold_cond2 && inode_cond && fit_cond1

/-- On-disk inode record.  `direct_blocks` holds `NDIRECT = 12` absolute
data-block indices; 0 means "no block". -/
structure DInode where
  ft : FType
  nlink : Nat
  size : Nat
  direct_blocks : List Nat
  deriving DecidableEq, Repr

instance : Inhabited DInode := ⟨⟨.TFree, 0, 0, List.replicate 12 0⟩⟩

/-- In-memory inode: the pair of an inode number and its disk record. -/
structure Inode where
  inum : Nat
  disk_node : DInode
  deriving DecidableEq, Repr

/-- State of a mounted file system.  `inodes` is the inode region (slot `i`
holds inode `i`), `bitmap` the flattened bytes of the bitmap region
(blocks `[bmapstart, datastart)`), and `data` the data region, slot `j`
standing for the absolute block `datastart + j`.  The content type `α` of a
data block is `List Nat` (bytes) for the byte-level layers and
`List DirEntry` for the directory layer. -/
structure DiskFS (α : Type) where
  sb : SuperBlock
  inodes : List DInode
  bitmap : List Nat
  data : List α
  deriving DecidableEq, Repr

/-- Byte index, within the flattened bitmap region, of the byte holding bit
`i`: the source addresses block `bmapstart + i / (block_size*8)` at byte
offset `(i % (block_size*8)) / 8`. -/
def bitByteIndex (sb : SuperBlock) (i : Nat) : Nat :=
  (i / (sb.block_size * 8)) * sb.block_size + (i % (sb.block_size * 8)) / 8

/-- Bit offset within its byte of bitmap bit `i`, as the source computes it:
`(i % (block_size*8)) % 8`. -/
def bitOffset (sb : SuperBlock) (i : Nat) : Nat := (i % (sb.block_size * 8)) % 8

/-- Spec-level view of bitmap bit `k` of a flat byte list (LSB-first within
each byte). -/
def bmBit (bm : List Nat) (k : Nat) : Bool := (bm.getD (k / 8) 0) &&& (1 <<< (k % 8)) != 0

/-- Transcription of `a_block_support.rs::b_free`.  `!set_byte` on a u8 is
`255 - set_byte` (the shifted byte is a power of two below 256). -/
def b_free {α : Type} (fs : DiskFS α) (i : Nat) : Except FSErr (DiskFS α) :=
  if i > pred64 fs.sb.ndatablocks then .error .DataIndexOutOfBounds
  else
    let byte := fs.bitmap.getD (bitByteIndex fs.sb i) 0
    let set_byte := 1 <<< bitOffset fs.sb i
    let or := byte ||| (255 - set_byte)
    if or = 255 - set_byte then .error .BlockIsAlreadyFree
    else
      let and := byte &&& (255 - set_byte)
      .ok { fs with bitmap := fs.bitmap.set (bitByteIndex fs.sb i) and }

/-- Transcription of `a_block_support.rs::b_zero`: overwrite the data block
at absolute index `datastart + i` (data-region slot `i`) with the zero
block. -/
def b_zero {α : Type} (zero : α) (fs : DiskFS α) (i : Nat) : Except FSErr (DiskFS α) :=
  if i > pred64 fs.sb.ndatablocks then .error .DataIndexOutOfBounds
  else .ok { fs with data := fs.data.set i zero }

/-- First clear bit (LSB-first) of one bitmap byte: the inner `z` loop of
`b_alloc`. -/
def firstClearBit8 (b : Nat) : Option Nat :=
  (List.range 8).find? (fun z => b &&& (1 <<< z) == 0)

/-- Linear scan of the flattened bitmap region for the first clear bit,
returning its global bit index: the `x`/`y`/`z` loops of `b_alloc`.  The
second argument counts the bytes already scanned, so that the byte at the
head of the list has flat index `j` and holds bits `8*j ..`. -/
def findClearBitAux : List Nat → Nat → Option Nat
  | [], _ => none
  | b :: rest, j =>
    match firstClearBit8 b with
    | some z => some (8 * j + z)
    | none => findClearBitAux rest (j + 1)

/-- Transcription of `a_block_support.rs::b_alloc`: scan bitmap blocks,
bytes and bits (LSB-first) for a clear bit; fail if its index reaches
`ndatablocks`; otherwise set it, write the bitmap block back, zero the
data block and return the index. -/
def b_alloc {α : Type} (zero : α) (fs : DiskFS α) : Except FSErr (DiskFS α × Nat) :=
  match findClearBitAux fs.bitmap 0 with
  | none => .error .NoFreeDataBlock
  | some index =>
    if index > pred64 fs.sb.ndatablocks then .error .NoFreeDataBlock
    else
      let byte := fs.bitmap.getD (index / 8) 0
      let new_byte := byte ||| (1 <<< (index % 8))
      let fs1 : DiskFS α := { fs with bitmap := fs.bitmap.set (index / 8) new_byte }
      match b_zero zero fs1 index with
      | .error e => .error e
      | .ok fs2 => .ok (fs2, index)

/-- Transcription of `b_inode_support.rs::i_get`.  Reading the containing
inode block and deserializing the slot is modelled as indexing the inode
region (serialization round-trips, and inode `i` occupies slot `i`). -/
def i_get {α : Type} (fs : DiskFS α) (i : Nat) : Except FSErr Inode :=
  if i > pred64 fs.sb.ninodes then .error .InodeIndexOutOfBounds
  else .ok ⟨i, fs.inodes.getD i default⟩

/-- Transcription of `b_inode_support.rs::i_put`: serialize the disk node
into its slot and write the block back.  The source returns a Result whose
only failures are device errors, outside this model. -/
def i_put {α : Type} (fs : DiskFS α) (ino : Inode) : DiskFS α :=
  { fs with inodes := fs.inodes.set ino.inum ino.disk_node }

/-- Scan loop of `i_alloc`: try inode indices `y, y+1, ...` (`k` of them)
and return the first whose stored inode is free. -/
def iAllocScan (inodes : List DInode) : Nat → Nat → Option Nat
  | _, 0 => none
  | y, k + 1 =>
    if (inodes.getD y default).ft = .TFree then some y
    else iAllocScan inodes (y + 1) k

/-- Transcription of `b_inode_support.rs::i_alloc`: scan `1..ninodes` for a
free slot; on success set `ft`, zero `size` and `nlink`, persist, return
the index; otherwise fail `NoFreeInode`. -/
def i_alloc {α : Type} (fs : DiskFS α) (ft : FType) : Except FSErr (DiskFS α × Nat) :=
  match iAllocScan fs.inodes 1 (fs.sb.ninodes - 1) with
  | some y =>
    let dn := fs.inodes.getD y default
    let dn2 : DInode := { dn with ft := ft, size := 0, nlink := 0 }
    .ok (i_put fs ⟨y, dn2⟩, y)
  | none => .error .NoFreeInode

/-- Integer ceiling division `(a + b - 1) / b`.  The source computes this
block count as `(a as f64 / b as f64).ceil()`; both agree whenever the
operands are exactly representable in f64 (in particular below 2^53);
`roundF64` below captures the conversion rounding beyond that range. -/
def ceilDiv (a b : Nat) : Nat := (a + b - 1) / b

/-- Reclamation loop of `i_free` (and `i_trunc`): for each of the first
`k` entries of `direct_blocks` that is non-zero, free the corresponding
bitmap bit via `b_free(entry - datastart)`. -/
def freeInodeBlocks {α : Type} (blocks : List Nat) (ds : Nat) :
    Nat → Nat → DiskFS α → Except FSErr (DiskFS α)
  | _, 0, fs => .ok fs
  | idx, k + 1, fs =>
    let element := blocks.getD idx 0
    if element = 0 then freeInodeBlocks blocks ds (idx + 1) k fs
    else
      match b_free fs (element - ds) with
      | .error e => .error e
      | .ok fs1 => freeInodeBlocks blocks ds (idx + 1) k fs1

/-- Transcription of `b_inode_support.rs::i_free`: bound-check, fail if the
inode is already free, and only when `nlink = 0` release the first
`ceil(size / block_size)` direct blocks, mark the inode free, clear its
block array and persist.  With a non-zero `nlink` the call is a silent
success. -/
def i_free {α : Type} (fs : DiskFS α) (i : Nat) : Except FSErr (DiskFS α) :=
  if i > pred64 fs.sb.ninodes then .error .InodeIndexOutOfBounds
  else
    let dn := fs.inodes.getD i default
    if dn.ft = .TFree then .error .InodeAlreadyFree
    else if dn.nlink = 0 then
      match freeInodeBlocks dn.direct_blocks fs.sb.datastart 0
          (ceilDiv dn.size fs.sb.block_size) fs with
      | .error e => .error e
      | .ok fs1 =>
        .ok (i_put fs1 ⟨i, { dn with ft := .TFree, direct_blocks := List.replicate 12 0 }⟩)
    else .ok fs

/-- File-system state whose data blocks are byte lists, as read and written
by the inode read/write layer (`e_inode_RW_support.rs`). -/
abbrev ByteFS := DiskFS (List Nat)

/-- Inner byte loop of `i_read` over one data block: transfer bytes at
logical positions `index*B + byteIdx ≥ off` into the buffer until `n`
bytes were transferred, the count reaches `size` (the source compares the
transfer COUNT against `inode.size`, not the file position), or the buffer
write runs past its bounds (the source breaks on that error without
bumping the count). -/
def irBlockScan (block : List Nat) (size n off index B : Nat) :
    Nat → Nat → List Nat → Nat → List Nat × Nat
  | 0, _, buf, bufOff => (buf, bufOff)
  | k + 1, byteIdx, buf, bufOff =>
    if bufOff ≥ n ∨ bufOff ≥ size then (buf, bufOff)
    else if index * B + byteIdx ≥ off then
      (if bufOff + 1 > buf.length then (buf, bufOff)
       else irBlockScan block size n off index B k (byteIdx + 1)
         (buf.set bufOff (block.getD byteIdx 0)) (bufOff + 1))
    else irBlockScan block size n off index B k (byteIdx + 1) buf bufOff

/-- Outer block loop of `i_read`: skip blocks wholly before `off`, stop
when `n` bytes were transferred or the buffer is full, skip zero entries
of `direct_blocks`, otherwise scan the block's bytes. -/
def irBlocks (fs : ByteFS) (blocks : List Nat) (size n off B : Nat) :
    Nat → Nat → List Nat → Nat → List Nat × Nat
  | 0, _, buf, bufOff => (buf, bufOff)
  | k + 1, index, buf, bufOff =>
    if (index + 1) * B < off then
      irBlocks fs blocks size n off B k (index + 1) buf bufOff
    else if bufOff ≥ n ∨ bufOff ≥ buf.length then (buf, bufOff)
    else
      let element := blocks.getD index 0
      if element = 0 then irBlocks fs blocks size n off B k (index + 1) buf bufOff
      else
        let block := fs.data.getD (element - fs.sb.datastart) []
        let r := irBlockScan block size n off index B B 0 buf bufOff
        irBlocks fs blocks size n off B k (index + 1) r.1 r.2

/-- Transcription of `e_inode_RW_support.rs::i_read`.  The result is the
final buffer contents together with the returned byte count. -/
def i_read (fs : ByteFS) (ino : Inode) (buf : List Nat) (off n : Nat) :
    Except FSErr (List Nat × Nat) :=
  if off = ino.disk_node.size then .ok (buf, 0)
  else if off > ino.disk_node.size then .error .IndexOutOfBounds
  else
    let B := fs.sb.block_size
    let nb := ceilDiv ino.disk_node.size B
    .ok (irBlocks fs ino.disk_node.direct_blocks ino.disk_node.size n off B nb 0 buf 0)

/-- Growth loop of `i_write`: allocate `k` fresh data blocks, assigning
entry `cur + i` of the block array to `datastart +` the allocated index.
When `cur + i` reaches the array length the source would panic; the
modelled `List.set` is then a no-op, and no theorem below evaluates that
case. -/
def iwGrow (cur : Nat) : Nat → Nat → ByteFS → List Nat → Except FSErr (ByteFS × List Nat)
  | 0, _, fs, blocks => .ok (fs, blocks)
  | k + 1, i, fs, blocks =>
    match b_alloc (List.replicate fs.sb.block_size 0) fs with
    | .error e => .error e
    | .ok (fs1, rel) =>
      iwGrow cur k (i + 1) fs1 (blocks.set (cur + i) (fs1.sb.datastart + rel))

/-- Inner byte loop of the `i_write` transfer over one data block: for each
byte position of the block at logical position `≥ off`, while fewer than
`n` bytes were taken from the buffer, store the next buffer byte; the
source writes the block back (`b_put`) on every iteration of the byte
loop.  The buffer read is always in bounds (`bufOff < n ≤ buf.length` is
checked before the transfer starts). -/
def iwBlockScan (buf : List Nat) (n off index B el ds : Nat) :
    Nat → Nat → ByteFS → List Nat → Nat → ByteFS × Nat
  | 0, _, fs, _, bufOff => (fs, bufOff)
  | k + 1, byteIdx, fs, block, bufOff =>
    if bufOff ≥ n then (fs, bufOff)
    else
      let step :=
        if index * B + byteIdx ≥ off then
          (block.set byteIdx (buf.getD bufOff 0), bufOff + 1)
        else (block, bufOff)
      let fs1 : ByteFS := { fs with data := fs.data.set (el - ds) step.1 }
      iwBlockScan buf n off index B el ds k (byteIdx + 1) fs1 step.1 step.2

/-- Outer block loop of the `i_write` transfer. -/
def iwBlocks (buf : List Nat) (blocks : List Nat) (n off B ds : Nat) :
    Nat → Nat → ByteFS → Nat → ByteFS
  | 0, _, fs, _ => fs
  | k + 1, index, fs, bufOff =>
    if (index + 1) * B < off then iwBlocks buf blocks n off B ds k (index + 1) fs bufOff
    else if bufOff ≥ n then fs
    else
      let element := blocks.getD index 0
      if element = 0 then iwBlocks buf blocks n off B ds k (index + 1) fs bufOff
      else
        let block := fs.data.getD (element - ds) []
        let r := iwBlockScan buf n off index B element ds B 0 fs block bufOff
        iwBlocks buf blocks n off B ds k (index + 1) r.1 r.2

/-- Transcription of `e_inode_RW_support.rs::i_write`: bound checks, block
growth past the currently allocated blocks, the size bump for writes that
end strictly inside the allocated blocks but past `size` (the source
comparison is strict), the unconditional persist of the inode, and the
byte transfer. -/
def i_write (fs : ByteFS) (ino : Inode) (buf : List Nat) (off n : Nat) :
    Except FSErr (ByteFS × Inode) :=
  if off > ino.disk_node.size then .error .IndexOutOfBounds
  else if buf.length < n then .error .BufTooSmall
  else if off + n > ino.disk_node.direct_blocks.length * fs.sb.block_size then
    .error .WriteTooLarge
  else
    let B := fs.sb.block_size
    let cur := ceilDiv ino.disk_node.size B
    let grown : Except FSErr (ByteFS × Inode) :=
      if off + n > cur * B then
        match iwGrow cur (ceilDiv ((off + n) - ino.disk_node.size) B) 0 fs
            ino.disk_node.direct_blocks with
        | .error e => .error e
        | .ok (fs1, blocks1) =>
          let ino1 : Inode :=
            ⟨ino.inum, { ino.disk_node with direct_blocks := blocks1, size := off + n }⟩
          .ok (i_put fs1 ino1, ino1)
      else .ok (fs, ino)
    match grown with
    | .error e => .error e
    | .ok (fs2, ino2) =>
      let ino3 : Inode :=
        if off + n < cur * B ∧ off + n > ino2.disk_node.size then
          ⟨ino2.inum, { ino2.disk_node with size := off + n }⟩
        else ino2
      let fs3 := i_put fs2 ino3
      let nb := ceilDiv ino3.disk_node.size B
      .ok (iwBlocks buf ino3.disk_node.direct_blocks n off B fs.sb.datastart nb 0 fs3 0, ino3)

/-- Serialized size in bytes of a directory entry (API constant). -/
def DIRENTRY_SIZE : Nat := 22

/-- Width of the fixed, NUL-padded name field of a directory entry (API
constant). -/
def DIRNAME_SIZE : Nat := 14

/-- Directory entry: a referenced inode number (0 means "empty slot") and
the fixed-width name field, modelled as its character array. -/
structure DirEntry where
  inum : Nat
  name : List Char
  deriving DecidableEq, Repr

instance : Inhabited DirEntry := ⟨⟨0, List.replicate DIRNAME_SIZE (Char.ofNat 0)⟩⟩

/-- Transcription of `c_dirs_support.rs::set_name_str`: reject an empty
name, a name that is neither `.` nor `..` nor all-alphanumeric, or a name
longer than `DIRNAME_SIZE`; otherwise copy the characters, NUL-terminated
when shorter than the field, into a NUL-filled field. -/
def set_name_str (de : DirEntry) (name : List Char) : Option DirEntry :=
  let empty_cond := name.isEmpty
  let point_cond :=
    ! (name = ['.'] || name = ['.', '.'] || name.all Char.isAlphanum)
  let length_cond := decide (name.length > DIRNAME_SIZE)
  if empty_cond || point_cond || length_cond then none
  else
    let newname := if name.length < DIRNAME_SIZE then name ++ [Char.ofNat 0] else name
    some { de with
      name := newname ++ List.replicate (DIRNAME_SIZE - newname.length) (Char.ofNat 0) }

/-- Transcription of `c_dirs_support.rs::get_name_str`: the prefix of the
name field up to the first NUL (at most `DIRNAME_SIZE` characters). -/
def get_name_str (de : DirEntry) : List Char :=
  (de.name.take DIRNAME_SIZE).takeWhile (fun c => c ≠ Char.ofNat 0)

/-- Transcription of `c_dirs_support.rs::new_de`: a default entry with the
given `inum` and the encoded name, or `none` for an invalid name. -/
def new_de (inum : Nat) (name : List Char) : Option DirEntry :=
  match set_name_str { inum := inum, name := List.replicate DIRNAME_SIZE (Char.ofNat 0) } name with
  | some de => some de
  | none => none

/-- File-system state whose data blocks are viewed as arrays of directory
entries (a block holds `block_size / DIRENTRY_SIZE` slots; slot `s` sits at
byte offset `s * DIRENTRY_SIZE`). -/
abbrev DirFS := DiskFS (List DirEntry)

/-- Inner slot loop of `dirlookup` over one directory block: examine the
entry at each byte offset `0, DIRENTRY_SIZE, ...`; return the first
non-empty entry whose decoded name matches, together with its offset
within the block; after each slot the source breaks once the block-local
offset reaches the directory's (absolute) `size`. -/
def dlScan (entries : List DirEntry) (name : List Char) (size : Nat) :
    Nat → Nat → Option (Nat × Nat)
  | 0, _ => none
  | k + 1, off =>
    let e := entries.getD (off / DIRENTRY_SIZE) default
    if e.inum ≠ 0 ∧ get_name_str e = name then some (e.inum, off)
    else if off + DIRENTRY_SIZE ≥ size then none
    else dlScan entries name size k (off + DIRENTRY_SIZE)

/-- Outer block loop of `dirlookup`: walk the first `k` entries of
`direct_blocks`, skipping zero entries, and scan each referenced block;
return the matching entry's inode number, block index and block-local
offset. -/
def dlBlocks (fs : DirFS) (blocks : List Nat) (name : List Char) (size nbd : Nat) :
    Nat → Nat → Option (Nat × Nat × Nat)
  | 0, _ => none
  | k + 1, index =>
    let element := blocks.getD index 0
    if element = 0 then dlBlocks fs blocks name size nbd k (index + 1)
    else
      let entries := fs.data.getD (element - fs.sb.datastart) []
      match dlScan entries name size nbd 0 with
      | some r => some (r.1, index, r.2)
      | none => dlBlocks fs blocks name size nbd k (index + 1)

/-- Transcription of `c_dirs_support.rs::dirlookup`: require a directory
inode, scan `ceil(size / block_size)` direct blocks, and return
`(i_get(inum), block_size * index + offset)` for the first match, else
`NoEntryFoundForName`. -/
def dirlookup (fs : DirFS) (ino : Inode) (name : List Char) :
    Except FSErr (Inode × Nat) :=
  if ino.disk_node.ft ≠ .TDir then .error .InodeWrongType
  else
    let B := fs.sb.block_size
    let nb := ceilDiv ino.disk_node.size B
    let nbd := B / DIRENTRY_SIZE
    match dlBlocks fs ino.disk_node.direct_blocks name ino.disk_node.size nbd nb 0 with
    | some r =>
      match i_get fs r.1 with
      | .error e => .error e
      | .ok tgt => .ok (tgt, B * r.2.1 + r.2.2)
    | none => .error .NoEntryFoundForName

/-- Inner slot loop of `dirlink` over one directory block: at each slot,
when the entry is empty or the slot end `base + off + DIRENTRY_SIZE` lies
at or past the directory's current size, first (in the latter case) extend
the directory size to cover the slot and persist the inode; then, when the
entry is empty, report the slot offset.  The directory inode is threaded
through because its size mutates during the scan. -/
def linkSlots (entries : List DirEntry) (base : Nat) :
    Nat → Nat → DirFS → Inode → DirFS × Inode × Option Nat
  | 0, _, fs, ino => (fs, ino, none)
  | k + 1, off, fs, ino =>
    let e := entries.getD (off / DIRENTRY_SIZE) default
    if e.inum = 0 ∨ base + off + DIRENTRY_SIZE ≥ ino.disk_node.size then
      let st :=
        if base + off + DIRENTRY_SIZE ≥ ino.disk_node.size then
          let ino1 : Inode :=
            ⟨ino.inum, { ino.disk_node with size := base + off + DIRENTRY_SIZE }⟩
          (i_put fs ino1, ino1)
        else (fs, ino)
      if e.inum = 0 then (st.1, st.2, some off)
      else linkSlots entries base k (off + DIRENTRY_SIZE) st.1 st.2
    else linkSlots entries base k (off + DIRENTRY_SIZE) fs ino

/-- Outer block loop of `dirlink`: walk the first `k` entries of the
directory's block array (the array itself does not change during the
scan), skipping zero entries; when a block yields an empty slot, write the
new entry into that slot, write the block back, bump the target inode's
`nlink` unless it is the directory itself, and return the absolute byte
offset; otherwise fall through with the threaded state. -/
def linkBlocks (de : DirEntry) (blocks : List Nat) (dirInum targetInum : Nat)
    (corr : DInode) (nbd B ds : Nat) :
    Nat → Nat → DirFS → Inode → (DirFS × Inode × Nat) ⊕ (DirFS × Inode)
  | 0, _, fs, ino => Sum.inr (fs, ino)
  | k + 1, index, fs, ino =>
    let element := blocks.getD index 0
    if element = 0 then
      linkBlocks de blocks dirInum targetInum corr nbd B ds k (index + 1) fs ino
    else
      let entries := fs.data.getD (element - ds) []
      match linkSlots entries (B * index) nbd 0 fs ino with
      | (fs1, ino1, some off) =>
        let fs2 : DirFS :=
          { fs1 with data := fs1.data.set (element - ds) (entries.set (off / DIRENTRY_SIZE) de) }
        let fs3 :=
          if dirInum ≠ targetInum then
            i_put fs2 ⟨targetInum, { corr with nlink := corr.nlink + 1 }⟩
          else fs2
        Sum.inl (fs3, ino1, B * index + off)
      | (fs1, ino1, none) =>
        linkBlocks de blocks dirInum targetInum corr nbd B ds k (index + 1) fs1 ino1

/-- Transcription of `c_dirs_support.rs::dirlink`: preconditions (directory
type, target inode in use, valid name, name not found by `dirlookup`),
first-fit insertion into the existing blocks, and otherwise extension with
a freshly allocated, zeroed block (failing `InodeBlocksFull` at `NDIRECT`
blocks).  Returns the final state, the mutated directory inode and the
absolute byte offset of the new entry. -/
def dirlink (fs : DirFS) (ino : Inode) (name : List Char) (inum : Nat) :
    Except FSErr (DirFS × Inode × Nat) :=
  if ino.disk_node.ft ≠ .TDir then .error .InodeWrongType
  else
    match i_get fs inum with
    | .error e => .error e
    | .ok corrIno =>
      if corrIno.disk_node.ft = .TFree then .error .DirectoryInodeNotInUse
      else
        match new_de inum name with
        | none => .error .InvalidEntryName
        | some de =>
          match dirlookup fs ino name with
          | .ok _ => .error .InvalidEntryName
          | .error _ =>
            let B := fs.sb.block_size
            let nb := ceilDiv ino.disk_node.size B
            let nbd := B / DIRENTRY_SIZE
            match linkBlocks de ino.disk_node.direct_blocks ino.inum inum
                corrIno.disk_node nbd B fs.sb.datastart nb 0 fs ino with
            | Sum.inl res => .ok res
            | Sum.inr (fs1, ino1) =>
              if nb = ino.disk_node.direct_blocks.length then .error .InodeBlocksFull
              else
                match b_alloc (List.replicate nbd default) fs1 with
                | .error e => .error e
                | .ok (fsa, rel) =>
                  let newAbs := fs.sb.datastart + rel
                  let newEntries := (fsa.data.getD rel []).set 0 de
                  let dn2 : DInode :=
                    { ino1.disk_node with
                      size := B * nb + DIRENTRY_SIZE
                      direct_blocks := ino.disk_node.direct_blocks.set nb newAbs }
                  let ino2 : Inode := ⟨ino.inum, dn2⟩
                  let fs3 := i_put fsa ino2
                  let fs4 : DirFS := { fs3 with data := fs3.data.set rel newEntries }
                  let fs5 :=
                    if ino.inum ≠ inum then
                      i_put fs4 ⟨inum, { corrIno.disk_node with
                        nlink := corrIno.disk_node.nlink + 1 }⟩
                    else fs4
                  .ok (fs5, ino2, B * nb)

/-- Rounding of a natural number in `[2^53, 2^54)` to the nearest IEEE-754
binary64 value (the doubles of that binade are exactly the even naturals),
ties to even significand: the rounding performed by the source's `size as
f64` conversion in that range. -/
def roundF64 (n : Nat) : Nat :=
  if n % 2 = 0 then n
  else if ((n - 1) / 2) % 2 = 0 then n - 1 else n + 1

/- ------------------------------------------------------------------ -/
/- Concrete states used by witnesses and counterexamples.              -/
/- ------------------------------------------------------------------ -/

/-- Small file system for the bitmap witnesses: one bitmap byte, 8 data
blocks, all allocated. -/
def w8fs : DiskFS Nat :=
  ⟨⟨1, 10, 1, 1, 8, 2, 3⟩, [⟨.TFree, 0, 0, List.replicate 12 0⟩], [255], [0, 0, 0, 0, 0, 0, 0, 0]⟩

/-- Small file system for the allocation witness: two bitmap bytes of which
the low 3 bits are taken, 16 data blocks. -/
def w3fs : DiskFS Nat :=
  ⟨⟨2, 30, 1, 1, 16, 4, 5⟩, [⟨.TFree, 0, 0, List.replicate 12 0⟩], [7, 0],
    [9, 9, 9, 9, 9, 9, 9, 9, 9, 9, 9, 9, 9, 9, 9, 9]⟩

/-- Small file system for the inode-allocation witnesses: four inodes of
which 0 and 1 are taken (inode 1 with a link) and 2, 3 are free. -/
def w5fs : DiskFS Nat :=
  ⟨⟨10, 20, 4, 1, 4, 2, 3⟩,
    [⟨.TFile, 1, 0, List.replicate 12 0⟩, ⟨.TFile, 1, 30, [3, 4, 0, 0, 0, 0, 0, 0, 0, 0, 0, 0]⟩,
      ⟨.TFree, 0, 0, List.replicate 12 0⟩, ⟨.TFree, 0, 0, List.replicate 12 0⟩],
    [255], [0, 0, 0, 0]⟩

/-- Update applied by `i_alloc` to the first free slot: set the file type,
zero the size and the link count. -/
def allocUpd (dn : DInode) (ft : FType) : DInode := { dn with ft := ft, size := 0, nlink := 0 }

/-- Byte-level file system used by the write witnesses: block size 10,
one zeroed data block at absolute index 6. -/
def w7fs : ByteFS :=
  ⟨⟨10, 20, 4, 1, 8, 4, 6⟩,
    [⟨.TFree, 0, 0, List.replicate 12 0⟩, ⟨.TFile, 0, 5, [6, 0, 0, 0, 0, 0, 0, 0, 0, 0, 0, 0]⟩],
    [1], [List.replicate 10 0]⟩

/-- File inode of `w7fs`: 5 bytes of content in the data block at absolute
index 6. -/
def w7ino : Inode := ⟨1, ⟨.TFile, 0, 5, [6, 0, 0, 0, 0, 0, 0, 0, 0, 0, 0, 0]⟩⟩

/-- Variant of `w7fs` whose data block carries the content bytes
`1,2,3,4,5` followed by the zero padding of the rest of the block. -/
def c2fs : ByteFS :=
  ⟨⟨10, 20, 4, 1, 8, 4, 6⟩,
    [⟨.TFree, 0, 0, List.replicate 12 0⟩, ⟨.TFile, 0, 5, [6, 0, 0, 0, 0, 0, 0, 0, 0, 0, 0, 0]⟩],
    [1], [[1, 2, 3, 4, 5, 0, 0, 0, 0, 0]]⟩

/-- Directory file system for the C1 counterexample: inode 0 is a file (in
use), inode 1 an empty directory; one free data block. -/
def c1fs : DirFS :=
  ⟨⟨100, 20, 4, 1, 10, 5, 6⟩,
    [⟨.TFile, 1, 0, List.replicate 12 0⟩, ⟨.TDir, 1, 0, List.replicate 12 0⟩,
      ⟨.TFree, 0, 0, List.replicate 12 0⟩, ⟨.TFree, 0, 0, List.replicate 12 0⟩],
    [0], [List.replicate 4 default]⟩

/-- Empty directory inode (inode 1) of `c1fs`. -/
def c1ino : Inode := ⟨1, ⟨.TDir, 1, 0, List.replicate 12 0⟩⟩

/-- Directory file system for the C1 witness: block size 22 (one directory
entry per block), inode 1 an empty directory, inode 2 a file, two free
data blocks. -/
def w1fs : DirFS :=
  ⟨⟨22, 30, 4, 1, 2, 4, 5⟩,
    [⟨.TFree, 0, 0, List.replicate 12 0⟩, ⟨.TDir, 1, 0, List.replicate 12 0⟩,
      ⟨.TFile, 0, 0, List.replicate 12 0⟩, ⟨.TFree, 0, 0, List.replicate 12 0⟩],
    [0], [[default], [default]]⟩

/-- Empty directory inode (inode 1) of `w1fs`. -/
def w1ino : Inode := ⟨1, ⟨.TDir, 1, 0, List.replicate 12 0⟩⟩

/- ------------------------------------------------------------------ -/
/- Helper lemmas.                                                      -/
/- ------------------------------------------------------------------ -/

/-- Claim C4: `sb_valid(sb)` returns true if and only if: `inodestart > 0`;
`inodestart < bmapstart < datastart`; the inode region holds `ninodes`
inodes (`DINODE_SIZE * ninodes <= (bmapstart - inodestart) * block_size`);
the bitmap region holds `ndatablocks` bits; the data region fits on the
device; and the summed regions fit within `nblocks`. -/
theorem sb_valid_iff (DSZ : Nat) (sb : SuperBlock) :
    sb_valid DSZ sb = true ↔
      (0 < sb.inodestart ∧
        sb.inodestart < sb.bmapstart ∧
        sb.bmapstart < sb.datastart ∧
        DSZ * sb.ninodes ≤ (sb.bmapstart - sb.inodestart) * sb.block_size ∧
        (sb.datastart - sb.bmapstart) * sb.block_size * 8 ≥ sb.ndatablocks ∧
        sb.datastart + sb.ndatablocks ≤ sb.nblocks ∧
        1 + (sb.bmapstart - sb.inodestart) + (sb.datastart - sb.bmapstart)
          + sb.ndatablocks ≤ sb.nblocks) := by
  unfold sb_valid
  split_ifs with h1 h2 <;>
    simp only [Bool.and_eq_true, decide_eq_true_eq, Bool.false_eq_true, false_iff] <;>
    omega

theorem pred64_eq {n : Nat} (h0 : 0 < n) (h64 : n < 2 ^ 64) : pred64 n = n - 1 := by
  unfold pred64
  omega

theorem bitByteIndex_eq (sb : SuperBlock) (i : Nat) : bitByteIndex sb i = i / 8 := by
  unfold bitByteIndex
  conv_rhs => rw [← Nat.div_add_mod i (sb.block_size * 8)]
  rw [show sb.block_size * 8 * (i / (sb.block_size * 8)) + i % (sb.block_size * 8)
      = 8 * (i / (sb.block_size * 8) * sb.block_size) + i % (sb.block_size * 8) by ring]
  rw [Nat.mul_add_div (by norm_num)]

theorem bitOffset_eq (sb : SuperBlock) (i : Nat) : bitOffset sb i = i % 8 := by
  unfold bitOffset
  exact Nat.mod_mod_of_dvd i ⟨sb.block_size, by ring⟩

theorem getD_set_self {α : Type} (l : List α) (j : Nat) (v d : α) (h : j < l.length) :
    (l.set j v).getD j d = v := by
  induction l generalizing j with
  | nil => simp at h
  | cons a t ih =>
    cases j with
    | zero => rfl
    | succ m => simpa using ih m (by simpa using h)

theorem getD_set_ne {α : Type} (l : List α) (i j : Nat) (v d : α) (h : i ≠ j) :
    (l.set i v).getD j d = l.getD j d := by
  induction l generalizing i j with
  | nil => rfl
  | cons a t ih =>
    cases i with
    | zero =>
      cases j with
      | zero => exact absurd rfl h
      | succ m => rfl
    | succ m =>
      cases j with
      | zero => rfl
      | succ p => simpa using ih m p (by omega)

theorem getD_lt_256 (l : List Nat) (j : Nat) (h : ∀ b ∈ l, b < 256) :
    l.getD j 0 < 256 := by
  by_cases hj : j < l.length
  · rw [List.getD_eq_getElem l 0 hj]
    exact h _ (List.getElem_mem hj)
  · rw [List.getD_eq_default l 0 (by omega)]
    norm_num

set_option maxRecDepth 10000 in
theorem byte_or_complement_iff :
    ∀ b < 256, ∀ z < 8,
      ((b ||| (255 - (1 <<< z))) = 255 - (1 <<< z) ↔ b &&& (1 <<< z) = 0) := by
  decide

set_option maxRecDepth 10000 in
theorem byte_clear_bit :
    ∀ b < 256, ∀ z < 8,
      ((b &&& (255 - (1 <<< z))) &&& (1 <<< z) = 0 ∧ b &&& (255 - (1 <<< z)) < 256) := by
  decide

/-- Claim C8: for a data-block index `i < ndatablocks`, `b_free(i)` fails
with `BlockIsAlreadyFree` exactly when bitmap bit `i` (LSB-first) is
already 0 — and the error path writes nothing back, as the error result
carries no state — and a successful `b_free(i)` followed by a second
`b_free(i)` makes the second call fail with `BlockIsAlreadyFree`. -/
theorem b_free_spec {α : Type} (fs : DiskFS α) (i : Nat)
    (hi : i < fs.sb.ndatablocks)
    (h64 : fs.sb.ndatablocks < 2 ^ 64)
    (hbytes : ∀ b ∈ fs.bitmap, b < 256) :
    (b_free fs i = .error .BlockIsAlreadyFree ↔ bmBit fs.bitmap i = false) ∧
      ∀ fs1, b_free fs i = .ok fs1 → b_free fs1 i = .error .BlockIsAlreadyFree := by
  have hguard : ¬ (i > pred64 fs.sb.ndatablocks) := by
    rw [pred64_eq (by omega) h64]
    omega
  have hz : i % 8 < 8 := Nat.mod_lt _ (by norm_num)
  have hbyte : fs.bitmap.getD (i / 8) 0 < 256 := getD_lt_256 _ _ hbytes
  constructor
  · unfold b_free
    rw [bitByteIndex_eq, bitOffset_eq, if_neg hguard]
    by_cases htest : (fs.bitmap.getD (i / 8) 0 ||| (255 - (1 <<< (i % 8))))
        = 255 - (1 <<< (i % 8))
    · rw [if_pos htest]
      have hband := (byte_or_complement_iff _ hbyte _ hz).mp htest
      constructor
      · intro _
        unfold bmBit
        rw [hband]
        rfl
      · intro _
        rfl
    · rw [if_neg htest]
      have hband : fs.bitmap.getD (i / 8) 0 &&& (1 <<< (i % 8)) ≠ 0 := fun h0 =>
        htest ((byte_or_complement_iff _ hbyte _ hz).mpr h0)
      constructor
      · intro h
        simp at h
      · intro h
        unfold bmBit at h
        simp only [bne_eq_false_iff_eq] at h
        exact absurd h hband
  · intro fs1 hok
    unfold b_free at hok
    rw [bitByteIndex_eq, bitOffset_eq, if_neg hguard] at hok
    by_cases htest : (fs.bitmap.getD (i / 8) 0 ||| (255 - (1 <<< (i % 8))))
        = 255 - (1 <<< (i % 8))
    · rw [if_pos htest] at hok
      simp at hok
    · rw [if_neg htest] at hok
      have hlen : i / 8 < fs.bitmap.length := by
        by_contra hge
        apply htest
        rw [List.getD_eq_default _ _ (by omega)]
        simp
      have hv256 : (fs.bitmap.getD (i / 8) 0 &&& (255 - (1 <<< (i % 8)))) < 256 :=
        (byte_clear_bit _ hbyte _ hz).2
      have hvb : (fs.bitmap.getD (i / 8) 0 &&& (255 - (1 <<< (i % 8)))) &&& (1 <<< (i % 8)) = 0 :=
        (byte_clear_bit _ hbyte _ hz).1
      have hfs1 : fs1 = { fs with
          bitmap := fs.bitmap.set (i / 8)
            (fs.bitmap.getD (i / 8) 0 &&& (255 - (1 <<< (i % 8)))) } := by
        injection hok with h
        exact h.symm
      subst hfs1
      unfold b_free
      dsimp only
      rw [bitByteIndex_eq, bitOffset_eq, if_neg hguard]
      rw [getD_set_self _ _ _ _ hlen]
      rw [if_pos ((byte_or_complement_iff _ hv256 _ hz).mpr hvb)]

/-- Witness for C8 at a concrete allocated bit. -/
theorem b_free_spec_witness :
    (b_free w8fs 0 = .error .BlockIsAlreadyFree ↔ bmBit w8fs.bitmap 0 = false) ∧
      ∀ fs1, b_free w8fs 0 = .ok fs1 → b_free fs1 0 = .error .BlockIsAlreadyFree :=
  b_free_spec w8fs 0 (by decide) (by decide) (by decide)

set_option maxRecDepth 10000 in
theorem firstClearBit8_some_iff :
    ∀ b < 256, ∀ z < 8,
      (firstClearBit8 b = some z ↔ (b &&& (1 <<< z) = 0 ∧ ∀ w < z, b &&& (1 <<< w) ≠ 0)) := by
  decide

set_option maxRecDepth 10000 in
theorem firstClearBit8_none_iff :
    ∀ b < 256, (firstClearBit8 b = none ↔ ∀ z < 8, b &&& (1 <<< z) ≠ 0) := by
  decide

theorem firstClearBit8_some_lt {b z : Nat} (h : firstClearBit8 b = some z) : z < 8 := by
  unfold firstClearBit8 at h
  have := List.mem_of_find?_eq_some h
  simpa using this

theorem firstClearBit8_some_clear {b z : Nat} (h : firstClearBit8 b = some z) :
    b &&& (1 <<< z) = 0 := by
  unfold firstClearBit8 at h
  have := List.find?_some h
  simpa using this

theorem bmBit_cons_lt (b : Nat) (rest : List Nat) (i : Nat) (h : i < 8) :
    bmBit (b :: rest) i = (b &&& (1 <<< i) != 0) := by
  unfold bmBit
  rw [Nat.div_eq_of_lt (by omega), Nat.mod_eq_of_lt (by omega)]
  rfl

theorem bmBit_cons_ge (b : Nat) (rest : List Nat) (i : Nat) (h : 8 ≤ i) :
    bmBit (b :: rest) i = bmBit rest (i - 8) := by
  unfold bmBit
  have h1 : i / 8 = (i - 8) / 8 + 1 := by omega
  have h2 : i % 8 = (i - 8) % 8 := by omega
  rw [h1, h2]
  rfl

theorem findClearBitAux_finds (bm : List Nat) (hb : ∀ b ∈ bm, b < 256) :
    ∀ j0 i, i < 8 * bm.length → bmBit bm i = false → (∀ j < i, bmBit bm j = true) →
      findClearBitAux bm j0 = some (8 * j0 + i) := by
  induction bm with
  | nil =>
    intro j0 i hi
    simp at hi
  | cons b rest ih =>
    intro j0 i hi hclear hset
    have hb0 : b < 256 := hb b (by simp)
    by_cases h8 : i < 8
    · have hfc : firstClearBit8 b = some i := by
        rw [firstClearBit8_some_iff b hb0 i h8]
        constructor
        · have h1 := hclear
          rw [bmBit_cons_lt b rest i h8] at h1
          simpa using h1
        · intro w hw
          have h1 := hset w (by omega)
          rw [bmBit_cons_lt b rest w (by omega)] at h1
          simpa using h1
      unfold findClearBitAux
      rw [hfc]
    · have hfc : firstClearBit8 b = none := by
        rw [firstClearBit8_none_iff b hb0]
        intro z hz
        have h1 := hset z (by omega)
        rw [bmBit_cons_lt b rest z hz] at h1
        simpa using h1
      unfold findClearBitAux
      rw [hfc]
      have hi9 : i < 8 * (rest.length + 1) := by simpa using hi
      have hrec := ih (fun x hx => hb x (by simp [hx])) (j0 + 1) (i - 8)
        (by omega)
        (by rw [← bmBit_cons_ge b rest i (by omega)]; exact hclear)
        (fun j hj => by
          have h1 := hset (j + 8) (by omega)
          rwa [bmBit_cons_ge b rest (j + 8) (by omega), Nat.add_sub_cancel] at h1)
      rw [hrec]
      simp only [Option.some.injEq]
      omega

theorem findClearBitAux_sound (bm : List Nat) :
    ∀ j0 k, findClearBitAux bm j0 = some k → 8 * j0 ≤ k ∧ bmBit bm (k - 8 * j0) = false := by
  induction bm with
  | nil =>
    intro j0 k h
    simp [findClearBitAux] at h
  | cons b rest ih =>
    intro j0 k h
    unfold findClearBitAux at h
    cases hfc : firstClearBit8 b with
    | some z =>
      rw [hfc] at h
      injection h with h
      have hz8 : z < 8 := firstClearBit8_some_lt hfc
      have hcl : b &&& (1 <<< z) = 0 := firstClearBit8_some_clear hfc
      subst h
      refine ⟨by omega, ?_⟩
      rw [show 8 * j0 + z - 8 * j0 = z by omega, bmBit_cons_lt b rest z hz8, hcl]
      rfl
    | none =>
      rw [hfc] at h
      obtain ⟨h1, h2⟩ := ih (j0 + 1) k h
      refine ⟨by omega, ?_⟩
      rw [bmBit_cons_ge b rest (k - 8 * j0) (by omega)]
      rw [show k - 8 * j0 - 8 = k - 8 * (j0 + 1) by omega]
      exact h2

/-- Claim C3: `b_alloc` returns `Ok(i)` exactly when `i` is the smallest
index in `[0, ndatablocks)` whose bitmap bit (scanned LSB-first) is 0; on
success it sets that bit, writes the bitmap back and zeroes the data block
at data-region index `i` (absolute block `datastart + i`), returning `i`;
when every bit below `ndatablocks` is 1 it fails with `NoFreeDataBlock`
(also when the only clear bits are tail bits at index `≥ ndatablocks`); the
two conjuncts cover both outcomes, so each implies the converse of the
other. -/
theorem b_alloc_spec {α : Type} (zero : α) (fs : DiskFS α)
    (h64 : fs.sb.ndatablocks < 2 ^ 64)
    (hnd0 : 0 < fs.sb.ndatablocks)
    (hbytes : ∀ b ∈ fs.bitmap, b < 256)
    (hndle : fs.sb.ndatablocks ≤ 8 * fs.bitmap.length) :
    (∀ i, i < fs.sb.ndatablocks → bmBit fs.bitmap i = false →
        (∀ j < i, bmBit fs.bitmap j = true) →
        b_alloc zero fs = .ok ({ fs with
          bitmap := fs.bitmap.set (i / 8) ((fs.bitmap.getD (i / 8) 0) ||| (1 <<< (i % 8)))
          data := fs.data.set i zero }, i))
      ∧ ((∀ i < fs.sb.ndatablocks, bmBit fs.bitmap i = true) →
        b_alloc zero fs = .error .NoFreeDataBlock) := by
  constructor
  · intro i hi hclear hfirst
    have hscan := findClearBitAux_finds fs.bitmap hbytes 0 i (by omega) hclear hfirst
    rw [show 8 * 0 + i = i by omega] at hscan
    have hguard : ¬ (i > pred64 fs.sb.ndatablocks) := by
      rw [pred64_eq hnd0 h64]
      omega
    unfold b_alloc
    rw [hscan]
    dsimp only
    rw [if_neg hguard]
    unfold b_zero
    dsimp only
    rw [if_neg hguard]
  · intro hall
    cases hscan : findClearBitAux fs.bitmap 0 with
    | none =>
      unfold b_alloc
      rw [hscan]
    | some k =>
      obtain ⟨hk0, hkbit⟩ := findClearBitAux_sound fs.bitmap 0 k hscan
      rw [show k - 8 * 0 = k by omega] at hkbit
      have hknd : ¬ k < fs.sb.ndatablocks := fun hlt => by
        rw [hall k hlt] at hkbit
        cases hkbit
      have hguard : k > pred64 fs.sb.ndatablocks := by
        rw [pred64_eq hnd0 h64]
        omega
      unfold b_alloc
      rw [hscan]
      dsimp only
      rw [if_pos hguard]

/-- Witness for C3: bitmap bytes `[7, 0]` (bits 0..2 taken), the scan
returns index 3, sets its bit and zeroes the corresponding data block. -/
theorem b_alloc_spec_witness :
    (∀ i, i < w3fs.sb.ndatablocks → bmBit w3fs.bitmap i = false →
        (∀ j < i, bmBit w3fs.bitmap j = true) →
        b_alloc 0 w3fs = .ok ({ w3fs with
          bitmap := w3fs.bitmap.set (i / 8) ((w3fs.bitmap.getD (i / 8) 0) ||| (1 <<< (i % 8)))
          data := w3fs.data.set i 0 }, i))
      ∧ ((∀ i < w3fs.sb.ndatablocks, bmBit w3fs.bitmap i = true) →
        b_alloc 0 w3fs = .error .NoFreeDataBlock) :=
  b_alloc_spec 0 w3fs (by decide) (by decide) (by decide) (by decide)

theorem iAllocScan_finds (inodes : List DInode) :
    ∀ y k i, y ≤ i → i < y + k → (inodes.getD i default).ft = .TFree →
      (∀ j, y ≤ j → j < i → (inodes.getD j default).ft ≠ .TFree) →
      iAllocScan inodes y k = some i := by
  intro y k
  induction k generalizing y with
  | zero =>
    intro i h1 h2
    omega
  | succ k ih =>
    intro i h1 h2 hfree hbefore
    unfold iAllocScan
    by_cases hy : (inodes.getD y default).ft = .TFree
    · rw [if_pos hy]
      have hyi : y = i := by
        by_contra hne
        exact hbefore y (Nat.le_refl y) (by omega) hy
      rw [hyi]
    · rw [if_neg hy]
      have hyi : y ≠ i := fun h => hy (h ▸ hfree)
      exact ih (y + 1) i (by omega) (by omega) hfree
        (fun j ha hb => hbefore j (by omega) hb)

theorem iAllocScan_none (inodes : List DInode) :
    ∀ y k, (∀ j, y ≤ j → j < y + k → (inodes.getD j default).ft ≠ .TFree) →
      iAllocScan inodes y k = none := by
  intro y k
  induction k generalizing y with
  | zero => intro _; rfl
  | succ k ih =>
    intro hall
    unfold iAllocScan
    rw [if_neg (hall y (Nat.le_refl y) (by omega))]
    exact ih (y + 1) (fun j h1 h2 => hall j (by omega) (by omega))

theorem iAllocScan_sound (inodes : List DInode) :
    ∀ y k i, iAllocScan inodes y k = some i →
      y ≤ i ∧ i < y + k ∧ (inodes.getD i default).ft = .TFree := by
  intro y k
  induction k generalizing y with
  | zero =>
    intro i h
    simp [iAllocScan] at h
  | succ k ih =>
    intro i h
    unfold iAllocScan at h
    by_cases hy : (inodes.getD y default).ft = .TFree
    · rw [if_pos hy] at h
      injection h with h
      subst h
      exact ⟨Nat.le_refl y, by omega, hy⟩
    · rw [if_neg hy] at h
      obtain ⟨h1, h2, h3⟩ := ih (y + 1) i h
      exact ⟨by omega, by omega, h3⟩

/-- Claim C5: `i_alloc(ft)` scans indices `[1, ninodes)` in increasing
order; it returns the first index whose stored inode is free after setting
that slot's `ft`, zeroing `size` and `nlink` and persisting it; any
returned index lies in `[1, ninodes)`, so inode 0 is never allocated; with
no free slot it fails `NoFreeInode`. -/
theorem i_alloc_spec {α : Type} (fs : DiskFS α) (ft : FType) :
    (∀ i, 1 ≤ i → i < fs.sb.ninodes → (fs.inodes.getD i default).ft = .TFree →
        (∀ j, 1 ≤ j → j < i → (fs.inodes.getD j default).ft ≠ .TFree) →
        i_alloc fs ft = .ok ({ fs with
          inodes := fs.inodes.set i (allocUpd (fs.inodes.getD i default) ft) }, i))
      ∧ ((∀ i, 1 ≤ i → i < fs.sb.ninodes → (fs.inodes.getD i default).ft ≠ .TFree) →
        i_alloc fs ft = .error .NoFreeInode)
      ∧ (∀ fs1 i, i_alloc fs ft = .ok (fs1, i) → 1 ≤ i ∧ i < fs.sb.ninodes) := by
  refine ⟨?_, ?_, ?_⟩
  · intro i h1 h2 hfree hbefore
    have hscan := iAllocScan_finds fs.inodes 1 (fs.sb.ninodes - 1) i h1 (by omega) hfree
      (fun j ha hb => hbefore j ha hb)
    unfold i_alloc
    rw [hscan]
    dsimp only
    unfold i_put allocUpd
    rfl
  · intro hall
    have hscan := iAllocScan_none fs.inodes 1 (fs.sb.ninodes - 1)
      (fun j ha hb => hall j ha (by omega))
    unfold i_alloc
    rw [hscan]
  · intro fs1 i hok
    unfold i_alloc at hok
    cases hscan : iAllocScan fs.inodes 1 (fs.sb.ninodes - 1) with
    | none =>
      rw [hscan] at hok
      simp at hok
    | some y =>
      rw [hscan] at hok
      obtain ⟨h1, h2, _⟩ := iAllocScan_sound fs.inodes 1 (fs.sb.ninodes - 1) y hscan
      have : y = i := by
        dsimp only at hok
        injection hok with hok
        exact congrArg Prod.snd hok
      omega

/-- Witness for C5 at a concrete state: slots 0 and 1 taken, slot 2 free. -/
theorem i_alloc_spec_witness :
    (∀ i, 1 ≤ i → i < w5fs.sb.ninodes → (w5fs.inodes.getD i default).ft = .TFree →
        (∀ j, 1 ≤ j → j < i → (w5fs.inodes.getD j default).ft ≠ .TFree) →
        i_alloc w5fs .TDir = .ok ({ w5fs with
          inodes := w5fs.inodes.set i (allocUpd (w5fs.inodes.getD i default) .TDir) }, i))
      ∧ ((∀ i, 1 ≤ i → i < w5fs.sb.ninodes → (w5fs.inodes.getD i default).ft ≠ .TFree) →
        i_alloc w5fs .TDir = .error .NoFreeInode)
      ∧ (∀ fs1 i, i_alloc w5fs .TDir = .ok (fs1, i) → 1 ≤ i ∧ i < w5fs.sb.ninodes) :=
  i_alloc_spec w5fs .TDir

/-- Claim C10: for an in-use inode with a non-zero link count, `i_free`
returns `Ok(())` and the state — bitmap, blocks, and the inode's own
fields — is untouched. -/
theorem i_free_nlink_spec {α : Type} (fs : DiskFS α) (i : Nat)
    (h64 : fs.sb.ninodes < 2 ^ 64)
    (hi : i < fs.sb.ninodes)
    (hft : (fs.inodes.getD i default).ft ≠ .TFree)
    (hnl : (fs.inodes.getD i default).nlink ≠ 0) :
    i_free fs i = .ok fs := by
  have hguard : ¬ (i > pred64 fs.sb.ninodes) := by
    rw [pred64_eq (by omega) h64]
    omega
  unfold i_free
  rw [if_neg hguard]
  dsimp only
  rw [if_neg hft, if_neg hnl]

/-- Witness for C10: inode 1 of the concrete state has `nlink = 1`. -/
theorem i_free_nlink_spec_witness : i_free w5fs 1 = .ok w5fs :=
  i_free_nlink_spec w5fs 1 (by decide) (by decide) (by decide) (by decide)

/-- Claim C7: a write whose end `off + n` exceeds `NDIRECT * block_size`
(with `off ≤ size` and a large enough buffer, so the earlier guards pass)
fails with `WriteTooLarge`; the error is raised before any allocation,
inode update or block write, and the error result carries no state. -/
theorem i_write_too_large (fs : ByteFS) (ino : Inode) (buf : List Nat) (off n : Nat)
    (hoff : off ≤ ino.disk_node.size)
    (hbuf : n ≤ buf.length)
    (hlen : ino.disk_node.direct_blocks.length = 12)
    (hlarge : off + n > 12 * fs.sb.block_size) :
    i_write fs ino buf off n = .error .WriteTooLarge := by
  unfold i_write
  rw [if_neg (by omega), if_neg (by omega), if_pos (by rw [hlen]; omega)]

/-- Witness for C7: writing 130 bytes at offset 0 into a file of block
size 10 exceeds the 12-block maximum. -/
theorem i_write_too_large_witness :
    i_write w7fs w7ino (List.replicate 130 7) 0 130 = .error .WriteTooLarge :=
  i_write_too_large w7fs w7ino (List.replicate 130 7) 0 130 (by decide) (by simp)
    (by decide) (by decide)

/-- Claim C6, amended: when the write ends strictly inside the allocated
blocks (`off + n < ceil(size/B) * B`; the source comparison is strict, so
the boundary case `off + n = ceil(size/B) * B` does not bump the size) and
past the current size, a successful `i_write` leaves the inode with
`size = off + n`.  The bound `size < 2^53` keeps the modelled integer
ceiling equal to the source's f64 ceiling. -/
theorem i_write_size_bump (fs : ByteFS) (ino : Inode) (buf : List Nat) (off n : Nat)
    (hoff : off ≤ ino.disk_node.size)
    (hbuf : n ≤ buf.length)
    (hlen : ino.disk_node.direct_blocks.length = 12)
    (hmax : off + n ≤ 12 * fs.sb.block_size)
    (hin : off + n < ceilDiv ino.disk_node.size fs.sb.block_size * fs.sb.block_size)
    (hpast : ino.disk_node.size < off + n)
    (_hs53 : ino.disk_node.size < 2 ^ 53) :
    (i_write fs ino buf off n).map (fun p => p.2.disk_node.size) = .ok (off + n) := by
  unfold i_write
  rw [if_neg (by omega), if_neg (by omega), if_neg (by rw [hlen]; omega)]
  dsimp only
  rw [if_neg (by omega)]
  dsimp only
  rw [if_pos ⟨by omega, by omega⟩]
  rfl

/-- Witness for the amended C6: writing bytes 2..7 of a 5-byte file (one
allocated block of size 10) bumps the size to 8. -/
theorem i_write_size_bump_witness :
    (i_write w7fs w7ino (List.replicate 6 7) 2 6).map (fun p => p.2.disk_node.size)
      = .ok (2 + 6) :=
  i_write_size_bump w7fs w7ino (List.replicate 6 7) 2 6 (by decide) (by decide) (by decide)
    (by decide) (by decide) (by decide) (by decide)

/-- Counterexample for C6 as stated: with `size = 5`, one allocated block
of size 10, `off = 5`, `n = 5`, the write ends exactly at the allocated
boundary (`off + n = ceil(size/B)*B = 10 ≤ NDIRECT*B`) and past `size`,
yet a successful `i_write` leaves `size = 5` instead of `off + n = 10`,
because the source's bump condition `off + n < cur_blocks * B` is strict. -/
theorem i_write_size_bump_boundary :
    5 ≤ w7ino.disk_node.size ∧
      5 + 5 ≤ ceilDiv w7ino.disk_node.size w7fs.sb.block_size * w7fs.sb.block_size ∧
      w7ino.disk_node.size < 5 + 5 ∧
      (i_write w7fs w7ino (List.replicate 5 7) 5 5).map (fun p => p.2.disk_node.size)
        = .ok 5 ∧
      (5 : Nat) ≠ 5 + 5 :=
  ⟨by decide, by decide, by decide, rfl, by decide⟩

/-- Claim C2 at its failing input: `i_read` of a 5-byte file at `off = 3`
with `n = 10` and a 10-byte buffer returns 5 — it keeps copying until the
transfer COUNT reaches `inode.size`, reading three bytes past end of file
(the zero padding of the block) — where the specified count
`min(n, buf.len(), size - off)` is 2. -/
theorem i_read_counts_past_eof :
    i_read c2fs w7ino (List.replicate 10 99) 3 10
        = .ok ([4, 5, 0, 0, 0, 99, 99, 99, 99, 99], 5) ∧
      (5 : Nat) ≠ min 10 (min (List.replicate 10 99).length (w7ino.disk_node.size - 3)) :=
  ⟨rfl, by decide⟩

/-- Claim C9 at its failing input: the source computes the block-count
ceiling through f64; converting `size = 2^53 + 1` to f64 rounds it (ties to
even) down to `2^53`, so with `block_size = 1` the f64 ceiling yields
`2^53` while the integer-arithmetic value `(size + B - 1) / B` mandated by
the spec is `2^53 + 1`. -/
theorem ceil_f64_rounding_divergence :
    roundF64 (2 ^ 53 + 1) = 2 ^ 53 ∧
      ceilDiv (2 ^ 53 + 1) 1 = 2 ^ 53 + 1 ∧
      roundF64 (2 ^ 53 + 1) ≠ ceilDiv (2 ^ 53 + 1) 1 := by
  refine ⟨?_, ?_, ?_⟩ <;> decide

theorem takeWhile_nonzero_append (name pad : List Char)
    (hno : ∀ c ∈ name, c ≠ Char.ofNat 0)
    (hpad : ∀ c ∈ pad, c = Char.ofNat 0) :
    (name ++ pad).takeWhile (fun c => c ≠ Char.ofNat 0) = name := by
  induction name with
  | nil =>
    cases pad with
    | nil => rfl
    | cons c cs =>
      rw [List.nil_append, List.takeWhile_cons, if_neg (by simp [hpad c (by simp)])]
  | cons c cs ih =>
    rw [List.cons_append, List.takeWhile_cons,
      if_pos (by simpa using hno c (by simp))]
    rw [ih (fun x hx => hno x (by simp [hx]))]

theorem set_name_str_names {de0 de : DirEntry} {name : List Char}
    (h : set_name_str de0 name = some de) :
    de.inum = de0.inum ∧ get_name_str de = name := by
  unfold set_name_str at h
  dsimp only at h
  split at h
  · simp at h
  · next hcond =>
    have hemp : name ≠ [] := by
      intro hx
      exact hcond (by simp [hx])
    have hlen : name.length ≤ DIRNAME_SIZE := by
      by_contra hx
      apply hcond
      have hgt : name.length > DIRNAME_SIZE := by omega
      simp [hgt]
    have hvalid : name = ['.'] ∨ name = ['.', '.'] ∨ name.all Char.isAlphanum = true := by
      by_contra hx
      push_neg at hx
      apply hcond
      have e1 : decide (name = ['.']) = false := by
        simp [hx.1]
      have e2 : decide (name = ['.', '.']) = false := by
        simp [hx.2.1]
      have e3 : name.all Char.isAlphanum = false := by
        cases hval : name.all Char.isAlphanum
        · rfl
        · exact absurd hval hx.2.2
      simp [e1, e2, e3]
    have hno : ∀ c ∈ name, c ≠ Char.ofNat 0 := by
      rcases hvalid with h1 | h1 | h1
      · rw [h1]
        intro c hc
        simp at hc
        subst hc
        decide
      · rw [h1]
        intro c hc
        simp at hc
        subst hc
        decide
      · intro c hc heq
        rw [List.all_eq_true] at h1
        have := h1 c hc
        subst heq
        revert this
        decide
    simp only [Option.some.injEq] at h
    subst h
    refine ⟨rfl, ?_⟩
    unfold get_name_str
    dsimp only
    by_cases hl : name.length < DIRNAME_SIZE
    · rw [if_pos hl]
      have hlen2 : ((name ++ [Char.ofNat 0]) ++
          List.replicate (DIRNAME_SIZE - (name ++ [Char.ofNat 0]).length) (Char.ofNat 0)).length
          = DIRNAME_SIZE := by
        simp
        unfold DIRNAME_SIZE at hl ⊢
        omega
      rw [List.take_of_length_le (by rw [hlen2])]
      rw [List.append_assoc]
      refine takeWhile_nonzero_append name _ hno ?_
      intro c hc
      simp at hc
      rcases hc with hc | hc
      · exact hc
      · exact hc.2
    · rw [if_neg hl]
      have hlen2 : (name ++
          List.replicate (DIRNAME_SIZE - name.length) (Char.ofNat 0)).length
          = DIRNAME_SIZE := by
        simp
        omega
      rw [List.take_of_length_le (by rw [hlen2])]
      refine takeWhile_nonzero_append name _ hno ?_
      intro c hc
      simp at hc
      exact hc.2

theorem new_de_names {inum : Nat} {name : List Char} {de : DirEntry}
    (h : new_de inum name = some de) :
    de.inum = inum ∧ get_name_str de = name := by
  unfold new_de at h
  cases hs : set_name_str { inum := inum, name := List.replicate DIRNAME_SIZE (Char.ofNat 0) }
      name with
  | none =>
    rw [hs] at h
    simp at h
  | some de1 =>
    rw [hs] at h
    simp only [Option.some.injEq] at h
    subst h
    exact set_name_str_names hs

theorem de_div (j : Nat) : DIRENTRY_SIZE * j / DIRENTRY_SIZE = j := by
  unfold DIRENTRY_SIZE
  omega

theorem dlScan_none (entries : List DirEntry) (name : List Char) (size : Nat)
    (hnone : ∀ s, (entries.getD s default).inum ≠ 0 →
      get_name_str (entries.getD s default) ≠ name) :
    ∀ k j, dlScan entries name size k (DIRENTRY_SIZE * j) = none := by
  intro k
  induction k with
  | zero => intro j; rfl
  | succ k ih =>
    intro j
    unfold dlScan
    dsimp only
    rw [de_div]
    rw [if_neg (fun hc => hnone j hc.1 hc.2)]
    by_cases hbreak : DIRENTRY_SIZE * j + DIRENTRY_SIZE ≥ size
    · rw [if_pos hbreak]
    · rw [if_neg hbreak]
      rw [show DIRENTRY_SIZE * j + DIRENTRY_SIZE = DIRENTRY_SIZE * (j + 1) by ring]
      exact ih (j + 1)

theorem dlScan_finds (entries : List DirEntry) (name : List Char) (size : Nat) (t : Nat)
    (hmatch : (entries.getD t default).inum ≠ 0 ∧ get_name_str (entries.getD t default) = name)
    (hbefore : ∀ s, s < t → (entries.getD s default).inum ≠ 0 →
      get_name_str (entries.getD s default) ≠ name)
    (hnobreak : ∀ s, s < t → DIRENTRY_SIZE * s + DIRENTRY_SIZE < size) :
    ∀ k j, j ≤ t → t - j < k →
      dlScan entries name size k (DIRENTRY_SIZE * j)
        = some ((entries.getD t default).inum, DIRENTRY_SIZE * t) := by
  intro k
  induction k with
  | zero =>
    intro j h1 h2
    omega
  | succ k ih =>
    intro j hj ht
    unfold dlScan
    dsimp only
    rw [de_div]
    by_cases hjt : j = t
    · subst hjt
      rw [if_pos hmatch]
    · rw [if_neg (fun hc => hbefore j (by omega) hc.1 hc.2)]
      rw [if_neg (by have := hnobreak j (by omega); omega)]
      rw [show DIRENTRY_SIZE * j + DIRENTRY_SIZE = DIRENTRY_SIZE * (j + 1) by ring]
      exact ih (j + 1) (by omega) (by omega)

theorem dlBlocks_finds (fs : DirFS) (blocks : List Nat) (name : List Char) (size nbd : Nat)
    (istar : Nat) (r : Nat × Nat)
    (hel : blocks.getD istar 0 ≠ 0)
    (hscan : dlScan (fs.data.getD (blocks.getD istar 0 - fs.sb.datastart) []) name size nbd 0
      = some r)
    (hbef : ∀ m, m < istar → (blocks.getD m 0 = 0 ∨
      dlScan (fs.data.getD (blocks.getD m 0 - fs.sb.datastart) []) name size nbd 0 = none)) :
    ∀ k j, j ≤ istar → istar - j < k →
      dlBlocks fs blocks name size nbd k j = some (r.1, istar, r.2) := by
  intro k
  induction k with
  | zero =>
    intro j h1 h2
    omega
  | succ k ih =>
    intro j h1 h2
    unfold dlBlocks
    dsimp only
    by_cases hj : j = istar
    · subst hj
      rw [if_neg hel, hscan]
    · rcases hbef j (by omega) with h0 | hn
      · rw [if_pos h0]
        exact ih (j + 1) (by omega) (by omega)
      · by_cases h0 : blocks.getD j 0 = 0
        · rw [if_pos h0]
          exact ih (j + 1) (by omega) (by omega)
        · rw [if_neg h0, hn]
          exact ih (j + 1) (by omega) (by omega)

theorem le_ceilDiv_mul (s B : Nat) (hB : 0 < B) : s ≤ ceilDiv s B * B := by
  unfold ceilDiv
  rw [Nat.mul_comm]
  have hdm := Nat.div_add_mod (s + B - 1) B
  have hr := Nat.mod_lt (s + B - 1) hB
  omega

theorem lt_ceilDiv (a s B : Nat) (hB : 0 < B) (h : a * B < s) : a < ceilDiv s B := by
  have h1 := le_ceilDiv_mul s B hB
  by_contra hc
  push_neg at hc
  have h2 : ceilDiv s B * B ≤ a * B := Nat.mul_le_mul_right B hc
  omega

theorem ceilDiv_le (s a B : Nat) (hB : 0 < B) (h : s ≤ a * B) : ceilDiv s B ≤ a := by
  unfold ceilDiv
  have h2 : s + B - 1 < (a + 1) * B := by
    have h3 : (a + 1) * B = a * B + B := by ring
    omega
  have h4 := (Nat.div_lt_iff_lt_mul hB).mpr h2
  omega

theorem ceilDiv_block_add (nb B : Nat) (hB : 22 ≤ B) :
    ceilDiv (B * nb + DIRENTRY_SIZE) B = nb + 1 := by
  unfold ceilDiv DIRENTRY_SIZE
  rw [show B * nb + 22 + B - 1 = B * nb + (22 + B - 1) by omega]
  rw [Nat.mul_add_div (by omega)]
  have h1 : (22 + B - 1) / B = 1 :=
    Nat.div_eq_of_lt_le (by omega) (by omega)
  omega

theorem linkSlots_spec (entries : List DirEntry) (base : Nat) :
    ∀ k off fs ino fs1 ino1 res,
      linkSlots entries base k off fs ino = (fs1, ino1, res) →
      fs1.sb = fs.sb ∧ fs1.bitmap = fs.bitmap ∧ fs1.data = fs.data ∧
      ino1.inum = ino.inum ∧ ino1.disk_node.ft = ino.disk_node.ft ∧
      ino1.disk_node.direct_blocks = ino.disk_node.direct_blocks ∧
      ino.disk_node.size ≤ ino1.disk_node.size ∧
      (∀ off1, res = some off1 →
        (∃ m, m < k ∧ off1 = off + DIRENTRY_SIZE * m) ∧
        base + off1 + DIRENTRY_SIZE ≤ ino1.disk_node.size) := by
  intro k
  induction k with
  | zero =>
    intro off fs ino fs1 ino1 res h
    unfold linkSlots at h
    simp only [Prod.mk.injEq] at h
    obtain ⟨h1, h2, h3⟩ := h
    subst h1
    subst h2
    subst h3
    refine ⟨rfl, rfl, rfl, rfl, rfl, rfl, Nat.le_refl _, ?_⟩
    intro off1 hc
    simp at hc
  | succ k ih =>
    intro off fs ino fs1 ino1 res h
    unfold linkSlots at h
    dsimp only at h
    by_cases hcond : (entries.getD (off / DIRENTRY_SIZE) default).inum = 0 ∨
        base + off + DIRENTRY_SIZE ≥ ino.disk_node.size
    · rw [if_pos hcond] at h
      by_cases hext : base + off + DIRENTRY_SIZE ≥ ino.disk_node.size
      · rw [if_pos hext] at h
        by_cases hinum : (entries.getD (off / DIRENTRY_SIZE) default).inum = 0
        · rw [if_pos hinum] at h
          simp only [Prod.mk.injEq] at h
          obtain ⟨h1, h2, h3⟩ := h
          subst h1
          subst h2
          subst h3
          refine ⟨rfl, rfl, rfl, rfl, rfl, rfl, by dsimp only; omega, ?_⟩
          intro off1 hc
          simp only [Option.some.injEq] at hc
          subst hc
          exact ⟨⟨0, by omega, by omega⟩, by dsimp only; omega⟩
        · rw [if_neg hinum] at h
          obtain ⟨a1, a2, a3, a4, a5, a6, a7, a8⟩ := ih (off + DIRENTRY_SIZE) _ _ _ _ _ h
          refine ⟨a1, a2, a3, a4, a5, a6, by dsimp only at a7; omega, ?_⟩
          intro off1 hres
          obtain ⟨⟨m, hm, hoff1⟩, hsz⟩ := a8 off1 hres
          exact ⟨⟨m + 1, by omega, by unfold DIRENTRY_SIZE at hoff1 ⊢; omega⟩, hsz⟩
      · rw [if_neg hext] at h
        by_cases hinum : (entries.getD (off / DIRENTRY_SIZE) default).inum = 0
        · rw [if_pos hinum] at h
          simp only [Prod.mk.injEq] at h
          obtain ⟨h1, h2, h3⟩ := h
          subst h1
          subst h2
          subst h3
          refine ⟨rfl, rfl, rfl, rfl, rfl, rfl, Nat.le_refl _, ?_⟩
          intro off1 hc
          simp only [Option.some.injEq] at hc
          subst hc
          exact ⟨⟨0, by omega, by omega⟩, by omega⟩
        · exact absurd (hcond.resolve_right hext) hinum
    · rw [if_neg hcond] at h
      obtain ⟨a1, a2, a3, a4, a5, a6, a7, a8⟩ := ih (off + DIRENTRY_SIZE) _ _ _ _ _ h
      refine ⟨a1, a2, a3, a4, a5, a6, a7, ?_⟩
      intro off1 hres
      obtain ⟨⟨m, hm, hoff1⟩, hsz⟩ := a8 off1 hres
      exact ⟨⟨m + 1, by omega, by unfold DIRENTRY_SIZE at hoff1 ⊢; omega⟩, hsz⟩

theorem linkBlocks_inr_spec (de : DirEntry) (blocks : List Nat) (dirInum targetInum : Nat)
    (corr : DInode) (nbd B ds : Nat) :
    ∀ k index fs ino fs1 ino1,
      linkBlocks de blocks dirInum targetInum corr nbd B ds k index fs ino
        = Sum.inr (fs1, ino1) →
      fs1.sb = fs.sb ∧ fs1.bitmap = fs.bitmap ∧ fs1.data = fs.data ∧
      ino1.inum = ino.inum ∧ ino1.disk_node.ft = ino.disk_node.ft ∧
      ino1.disk_node.direct_blocks = ino.disk_node.direct_blocks ∧
      ino.disk_node.size ≤ ino1.disk_node.size := by
  intro k
  induction k with
  | zero =>
    intro index fs ino fs1 ino1 h
    unfold linkBlocks at h
    simp only [Sum.inr.injEq, Prod.mk.injEq] at h
    obtain ⟨h1, h2⟩ := h
    subst h1
    subst h2
    exact ⟨rfl, rfl, rfl, rfl, rfl, rfl, Nat.le_refl _⟩
  | succ k ih =>
    intro index fs ino fs1 ino1 h
    unfold linkBlocks at h
    dsimp only at h
    by_cases h0 : blocks.getD index 0 = 0
    · rw [if_pos h0] at h
      exact ih (index + 1) fs ino fs1 ino1 h
    · rw [if_neg h0] at h
      cases hls : linkSlots (fs.data.getD (blocks.getD index 0 - ds) []) (B * index) nbd 0 fs ino
        with
      | mk fsa p =>
        cases p with
        | mk inoa res =>
          rw [hls] at h
          cases res with
          | some off => simp at h
          | none =>
            obtain ⟨a1, a2, a3, a4, a5, a6, a7, _⟩ :=
              linkSlots_spec (fs.data.getD (blocks.getD index 0 - ds) []) (B * index)
                nbd 0 fs ino fsa inoa none hls
            obtain ⟨b1, b2, b3, b4, b5, b6, b7⟩ := ih (index + 1) fsa inoa fs1 ino1 h
            exact ⟨b1.trans a1, b2.trans a2, b3.trans a3, b4.trans a4, b5.trans a5,
              b6.trans a6, Nat.le_trans a7 b7⟩

theorem linkBlocks_inl_spec (de : DirEntry) (blocks : List Nat) (dirInum targetInum : Nat)
    (corr : DInode) (nbd B ds : Nat) :
    ∀ k index fs ino fsf inof o,
      linkBlocks de blocks dirInum targetInum corr nbd B ds k index fs ino
        = Sum.inl (fsf, inof, o) →
      ∃ istar off1,
        index ≤ istar ∧ istar < index + k ∧
        blocks.getD istar 0 ≠ 0 ∧
        o = B * istar + off1 ∧
        (∃ m, m < nbd ∧ off1 = DIRENTRY_SIZE * m) ∧
        fsf.data = fs.data.set (blocks.getD istar 0 - ds)
          ((fs.data.getD (blocks.getD istar 0 - ds) []).set (off1 / DIRENTRY_SIZE) de) ∧
        fsf.sb = fs.sb ∧ fsf.bitmap = fs.bitmap ∧
        inof.inum = ino.inum ∧ inof.disk_node.ft = ino.disk_node.ft ∧
        inof.disk_node.direct_blocks = ino.disk_node.direct_blocks ∧
        ino.disk_node.size ≤ inof.disk_node.size ∧
        B * istar + off1 + DIRENTRY_SIZE ≤ inof.disk_node.size := by
  intro k
  induction k with
  | zero =>
    intro index fs ino fsf inof o h
    unfold linkBlocks at h
    simp at h
  | succ k ih =>
    intro index fs ino fsf inof o h
    unfold linkBlocks at h
    dsimp only at h
    by_cases h0 : blocks.getD index 0 = 0
    · rw [if_pos h0] at h
      obtain ⟨istar, off1, c1, c2, c3, c4, c5, c6, c7, c8, c9, c10, c11, c12, c13⟩ :=
        ih (index + 1) fs ino fsf inof o h
      exact ⟨istar, off1, by omega, by omega, c3, c4, c5, c6, c7, c8, c9, c10, c11, c12, c13⟩
    · rw [if_neg h0] at h
      cases hls : linkSlots (fs.data.getD (blocks.getD index 0 - ds) []) (B * index) nbd 0 fs ino
        with
      | mk fsa p =>
        cases p with
        | mk inoa res =>
          rw [hls] at h
          obtain ⟨a1, a2, a3, a4, a5, a6, a7, a8⟩ :=
            linkSlots_spec (fs.data.getD (blocks.getD index 0 - ds) []) (B * index)
              nbd 0 fs ino fsa inoa res hls
          cases res with
          | some off =>
            dsimp only at h
            simp only [Sum.inl.injEq, Prod.mk.injEq] at h
            obtain ⟨hfs, hino, ho⟩ := h
            obtain ⟨⟨m, hm, hoffm⟩, hsz⟩ := a8 off rfl
            refine ⟨index, off, Nat.le_refl _, by omega, h0, ho.symm,
              ⟨m, hm, by omega⟩, ?_, ?_, ?_, ?_, ?_, ?_, ?_, ?_⟩
            · rw [← hfs]
              by_cases hdt : dirInum ≠ targetInum
              · rw [if_pos hdt]
                unfold i_put
                dsimp only
                rw [a3]
              · rw [if_neg hdt]
                dsimp only
                rw [a3]
            · rw [← hfs]
              by_cases hdt : dirInum ≠ targetInum
              · rw [if_pos hdt]
                unfold i_put
                dsimp only
                rw [a1]
              · rw [if_neg hdt]
                dsimp only
                rw [a1]
            · rw [← hfs]
              by_cases hdt : dirInum ≠ targetInum
              · rw [if_pos hdt]
                unfold i_put
                dsimp only
                rw [a2]
              · rw [if_neg hdt]
                dsimp only
                rw [a2]
            · rw [← hino]
              exact a4
            · rw [← hino]
              exact a5
            · rw [← hino]
              exact a6
            · rw [← hino]
              exact a7
            · rw [← hino]
              exact hsz
          | none =>
            obtain ⟨istar, off1, c1, c2, c3, c4, c5, c6, c7, c8, c9, c10, c11, c12, c13⟩ :=
              ih (index + 1) fsa inoa fsf inof o h
            refine ⟨istar, off1, by omega, by omega, c3, c4, c5, ?_, c7.trans a1,
              c8.trans a2, c9.trans a4, c10.trans a5, c11.trans a6,
              Nat.le_trans a7 c12, c13⟩
            rw [c6, a3]

theorem b_alloc_ok_inv {α : Type} (zero : α) (fs fs1 : DiskFS α) (rel : Nat)
    (h : b_alloc zero fs = .ok (fs1, rel)) :
    bmBit fs.bitmap rel = false ∧ ¬ (rel > pred64 fs.sb.ndatablocks) ∧
      fs1 = { fs with
        bitmap := fs.bitmap.set (rel / 8) ((fs.bitmap.getD (rel / 8) 0) ||| (1 <<< (rel % 8)))
        data := fs.data.set rel zero } := by
  unfold b_alloc at h
  cases hscan : findClearBitAux fs.bitmap 0 with
  | none =>
    rw [hscan] at h
    simp at h
  | some k =>
    rw [hscan] at h
    dsimp only at h
    by_cases hg : k > pred64 fs.sb.ndatablocks
    · rw [if_pos hg] at h
      simp at h
    · rw [if_neg hg] at h
      unfold b_zero at h
      dsimp only at h
      rw [if_neg hg] at h
      simp only [Except.ok.injEq, Prod.mk.injEq] at h
      obtain ⟨hfs, hrel⟩ := h
      subst hrel
      obtain ⟨_, hbit⟩ := findClearBitAux_sound fs.bitmap 0 k hscan
      rw [show k - 8 * 0 = k by omega] at hbit
      exact ⟨hbit, hg, hfs.symm⟩

theorem dirlookup_post (fs2 : DirFS) (ino2 : Inode) (name : List Char) (inum istar off1 : Nat)
    (hft2 : ino2.disk_node.ft = .TDir)
    (hinum_lt : ¬ (inum > pred64 fs2.sb.ninodes))
    (histar : istar < ceilDiv ino2.disk_node.size fs2.sb.block_size)
    (hel : ino2.disk_node.direct_blocks.getD istar 0 ≠ 0)
    (hscan : dlScan (fs2.data.getD (ino2.disk_node.direct_blocks.getD istar 0
        - fs2.sb.datastart) []) name ino2.disk_node.size (fs2.sb.block_size / DIRENTRY_SIZE) 0
      = some (inum, off1))
    (hbef : ∀ m, m < istar → (ino2.disk_node.direct_blocks.getD m 0 = 0 ∨
      dlScan (fs2.data.getD (ino2.disk_node.direct_blocks.getD m 0 - fs2.sb.datastart) [])
        name ino2.disk_node.size (fs2.sb.block_size / DIRENTRY_SIZE) 0 = none)) :
    dirlookup fs2 ino2 name
      = .ok (⟨inum, fs2.inodes.getD inum default⟩, fs2.sb.block_size * istar + off1) := by
  unfold dirlookup
  rw [if_neg (by rw [hft2]; simp)]
  dsimp only
  have hdb := dlBlocks_finds fs2 ino2.disk_node.direct_blocks name ino2.disk_node.size
    (fs2.sb.block_size / DIRENTRY_SIZE) istar (inum, off1) hel hscan hbef
    (ceilDiv ino2.disk_node.size fs2.sb.block_size) 0 (by omega) (by omega)
  rw [hdb]
  dsimp only
  unfold i_get
  rw [if_neg hinum_lt]

/-- Claim C1, amended: in a well-formed directory state (distinct non-zero
direct blocks that point into the data region, are backed by set bitmap
bits and hold `block_size / DIRENTRY_SIZE` entry slots), for a non-zero
target inode number `inum` and a name that appears in no slot of the
directory's blocks, a successful `dirlink(d, name, inum) = Ok(o)` makes a
subsequent `dirlookup(d, name)` return exactly `(i_get(inum), o)`.  The
original claim fails for `inum = 0` (the written entry is
indistinguishable from an empty slot) and for names present only in slots
beyond the directory's size, which `dirlookup` does not report. -/
theorem dirlink_dirlookup_roundtrip (fs : DirFS) (ino : Inode) (name : List Char) (inum : Nat)
    (fs2 : DirFS) (ino2 : Inode) (o : Nat)
    (hnum0 : inum ≠ 0)
    (hB : 22 ≤ fs.sb.block_size)
    (hds : 0 < fs.sb.datastart)
    (hnd0 : 0 < fs.sb.ndatablocks)
    (h64 : fs.sb.ndatablocks < 2 ^ 64)
    (hdata : fs.sb.ndatablocks ≤ fs.data.length)
    (hblen : ino.disk_node.direct_blocks.length = 12)
    (hsz : ino.disk_node.size ≤ 12 * fs.sb.block_size)
    (hwf : ∀ idx, idx < 12 → ino.disk_node.direct_blocks.getD idx 0 ≠ 0 →
      fs.sb.datastart ≤ ino.disk_node.direct_blocks.getD idx 0 ∧
      ino.disk_node.direct_blocks.getD idx 0 - fs.sb.datastart < fs.data.length ∧
      bmBit fs.bitmap (ino.disk_node.direct_blocks.getD idx 0 - fs.sb.datastart) = true ∧
      (fs.data.getD (ino.disk_node.direct_blocks.getD idx 0 - fs.sb.datastart) []).length
        = fs.sb.block_size / DIRENTRY_SIZE)
    (hdist : ∀ i1 i2, i1 < 12 → i2 < 12 → i1 ≠ i2 →
      ino.disk_node.direct_blocks.getD i1 0 ≠ 0 →
      ino.disk_node.direct_blocks.getD i1 0 ≠ ino.disk_node.direct_blocks.getD i2 0)
    (hnames : ∀ idx, idx < 12 → ino.disk_node.direct_blocks.getD idx 0 ≠ 0 →
      ∀ s, ((fs.data.getD (ino.disk_node.direct_blocks.getD idx 0 - fs.sb.datastart) []).getD
          s default).inum ≠ 0 →
        get_name_str ((fs.data.getD (ino.disk_node.direct_blocks.getD idx 0
          - fs.sb.datastart) []).getD s default) ≠ name)
    (hok : dirlink fs ino name inum = .ok (fs2, ino2, o)) :
    ∃ tgt, i_get fs2 inum = .ok tgt ∧ dirlookup fs2 ino2 name = .ok (tgt, o) := by
  have hDE : (0 : Nat) < DIRENTRY_SIZE := by decide
  have hB0 : 0 < fs.sb.block_size := by omega
  have hnbd1 : 1 ≤ fs.sb.block_size / DIRENTRY_SIZE :=
    (Nat.le_div_iff_mul_le hDE).mpr (by unfold DIRENTRY_SIZE; omega)
  unfold dirlink at hok
  by_cases hft : ino.disk_node.ft ≠ FType.TDir
  · rw [if_pos hft] at hok
    simp at hok
  · rw [if_neg hft] at hok
    rw [not_not] at hft
    cases hg : i_get fs inum with
    | error e =>
      rw [hg] at hok
      simp at hok
    | ok corrIno =>
      rw [hg] at hok
      dsimp only at hok
      by_cases hfree : corrIno.disk_node.ft = FType.TFree
      · rw [if_pos hfree] at hok
        simp at hok
      · rw [if_neg hfree] at hok
        cases hde : new_de inum name with
        | none =>
          rw [hde] at hok
          simp at hok
        | some de =>
          rw [hde] at hok
          cases hlk : dirlookup fs ino name with
          | ok r =>
            rw [hlk] at hok
            simp at hok
          | error e0 =>
            rw [hlk] at hok
            dsimp only at hok
            obtain ⟨hdeinum, hdename⟩ := new_de_names hde
            have hinum_lt : ¬ (inum > pred64 fs.sb.ninodes) := by
              intro hcon
              unfold i_get at hg
              rw [if_pos hcon] at hg
              simp at hg
            have hnb_le : ceilDiv ino.disk_node.size fs.sb.block_size ≤ 12 :=
              ceilDiv_le _ 12 _ hB0 (by omega)
            cases hlb : linkBlocks de ino.disk_node.direct_blocks ino.inum inum
                corrIno.disk_node (fs.sb.block_size / DIRENTRY_SIZE) fs.sb.block_size
                fs.sb.datastart (ceilDiv ino.disk_node.size fs.sb.block_size) 0 fs ino with
            | inl res =>
              rw [hlb] at hok
              dsimp only at hok
              simp only [Except.ok.injEq] at hok
              subst hok
              obtain ⟨istar, off1, e1, e2, e3, e4, ⟨m, hm, hoffm⟩, e6, e7, e8, e9, e10,
                e11, e12, e13⟩ :=
                linkBlocks_inl_spec de ino.disk_node.direct_blocks ino.inum inum
                  corrIno.disk_node (fs.sb.block_size / DIRENTRY_SIZE) fs.sb.block_size
                  fs.sb.datastart (ceilDiv ino.disk_node.size fs.sb.block_size) 0 fs ino
                  fs2 ino2 o hlb
              have histar12 : istar < 12 := by omega
              obtain ⟨w1, w2, w3, w4⟩ := hwf istar histar12 e3
              have hsb2 : fs2.sb = fs.sb := e7
              have hft2 : ino2.disk_node.ft = FType.TDir := by rw [e10, hft]
              have ht : off1 / DIRENTRY_SIZE = m := by rw [hoffm, de_div]
              have hlen_set : m < (fs.data.getD (ino.disk_node.direct_blocks.getD istar 0
                  - fs.sb.datastart) []).length := by
                rw [w4]
                exact hm
              have hentries2 : fs2.data.getD (ino.disk_node.direct_blocks.getD istar 0
                    - fs.sb.datastart) []
                  = (fs.data.getD (ino.disk_node.direct_blocks.getD istar 0
                    - fs.sb.datastart) []).set m de := by
                rw [e6, ht]
                exact getD_set_self _ _ _ _ w2
              have hmt : ((fs.data.getD (ino.disk_node.direct_blocks.getD istar 0
                    - fs.sb.datastart) []).set m de).getD m default = de :=
                getD_set_self _ _ _ _ hlen_set
              have hscanA : dlScan (fs2.data.getD (ino.disk_node.direct_blocks.getD istar 0
                    - fs.sb.datastart) []) name ino2.disk_node.size
                  (fs.sb.block_size / DIRENTRY_SIZE) 0 = some (inum, off1) := by
                rw [hentries2]
                have hfind := dlScan_finds ((fs.data.getD
                    (ino.disk_node.direct_blocks.getD istar 0 - fs.sb.datastart) []).set m de)
                  name ino2.disk_node.size m
                  (by rw [hmt]; exact ⟨by rw [hdeinum]; exact hnum0, hdename⟩)
                  (fun s hs hne => by
                    rw [getD_set_ne _ _ _ _ _ (by omega)] at hne ⊢
                    exact hnames istar histar12 e3 s hne)
                  (fun s hs => by
                    have hmul := Nat.mul_le_mul_left DIRENTRY_SIZE (show s + 1 ≤ m by omega)
                    have hd1 : DIRENTRY_SIZE * (s + 1) = DIRENTRY_SIZE * s + DIRENTRY_SIZE := by
                      ring
                    omega)
                  (fs.sb.block_size / DIRENTRY_SIZE) 0 (by omega) (by omega)
                rw [Nat.mul_zero] at hfind
                rw [hfind, hmt, hdeinum, ← hoffm]
              have hbefA : ∀ mm, mm < istar →
                  (ino.disk_node.direct_blocks.getD mm 0 = 0 ∨
                    dlScan (fs2.data.getD (ino.disk_node.direct_blocks.getD mm 0
                      - fs.sb.datastart) []) name ino2.disk_node.size
                      (fs.sb.block_size / DIRENTRY_SIZE) 0 = none) := by
                intro mm hmm
                by_cases h0 : ino.disk_node.direct_blocks.getD mm 0 = 0
                · exact Or.inl h0
                · refine Or.inr ?_
                  obtain ⟨v1, v2, _, _⟩ := hwf mm (by omega) h0
                  have hdd := hdist mm istar (by omega) (by omega) (by omega) h0
                  have hne : ino.disk_node.direct_blocks.getD istar 0 - fs.sb.datastart
                      ≠ ino.disk_node.direct_blocks.getD mm 0 - fs.sb.datastart := by
                    omega
                  have hdat : fs2.data.getD (ino.disk_node.direct_blocks.getD mm 0
                        - fs.sb.datastart) []
                      = fs.data.getD (ino.disk_node.direct_blocks.getD mm 0
                        - fs.sb.datastart) [] := by
                    rw [e6]
                    exact getD_set_ne _ _ _ _ _ hne
                  rw [hdat]
                  have hsn := dlScan_none (fs.data.getD (ino.disk_node.direct_blocks.getD mm 0
                      - fs.sb.datastart) []) name ino2.disk_node.size
                    (fun s => hnames mm (by omega) h0 s)
                    (fs.sb.block_size / DIRENTRY_SIZE) 0
                  rwa [Nat.mul_zero] at hsn
              have histar_lt : istar < ceilDiv ino2.disk_node.size fs.sb.block_size := by
                refine lt_ceilDiv istar _ _ hB0 ?_
                have hcomm : istar * fs.sb.block_size = fs.sb.block_size * istar :=
                  Nat.mul_comm _ _
                omega
              have hpost := dirlookup_post fs2 ino2 name inum istar off1 hft2
                (by rw [hsb2]; exact hinum_lt)
                (by rw [hsb2]; exact histar_lt)
                (by rw [e11]; exact e3)
                (by rw [e11, hsb2]; exact hscanA)
                (by intro mm hmm; rw [e11, hsb2]; exact hbefA mm hmm)
              refine ⟨⟨inum, fs2.inodes.getD inum default⟩, ?_, ?_⟩
              · unfold i_get
                rw [hsb2, if_neg hinum_lt]
              · rw [hpost, hsb2, e4]
            | inr p =>
              cases p with
              | mk fs1 ino1 =>
                rw [hlb] at hok
                dsimp only at hok
                by_cases hfull : ceilDiv ino.disk_node.size fs.sb.block_size
                    = ino.disk_node.direct_blocks.length
                · rw [if_pos hfull] at hok
                  simp at hok
                · rw [if_neg hfull] at hok
                  cases hba : b_alloc (List.replicate (fs.sb.block_size / DIRENTRY_SIZE)
                      default) fs1 with
                  | error e1 =>
                    rw [hba] at hok
                    simp at hok
                  | ok pr =>
                    cases pr with
                    | mk fsa rel =>
                      rw [hba] at hok
                      dsimp only at hok
                      simp only [Except.ok.injEq, Prod.mk.injEq] at hok
                      obtain ⟨hfs2, hino2, ho⟩ := hok
                      obtain ⟨r1, r2, r3, r4, r5, r6, r7⟩ := linkBlocks_inr_spec de
                        ino.disk_node.direct_blocks ino.inum inum corrIno.disk_node
                        (fs.sb.block_size / DIRENTRY_SIZE) fs.sb.block_size fs.sb.datastart
                        (ceilDiv ino.disk_node.size fs.sb.block_size) 0 fs ino fs1 ino1 hlb
                      obtain ⟨hbitrel, hrelguard, hfsa⟩ := b_alloc_ok_inv _ fs1 fsa rel hba
                      rw [r1] at hrelguard
                      rw [pred64_eq hnd0 h64] at hrelguard
                      have hrelnd : rel < fs.sb.ndatablocks := by omega
                      have hreldata : rel < fs.data.length := by omega
                      have hbitrel2 : bmBit fs.bitmap rel = false := by
                        rw [← r2]
                        exact hbitrel
                      have hnb12 : ceilDiv ino.disk_node.size fs.sb.block_size < 12 := by
                        rw [hblen] at hfull
                        omega
                      have hfsadata : fsa.data = fs.data.set rel
                          (List.replicate (fs.sb.block_size / DIRENTRY_SIZE) default) := by
                        rw [hfsa]
                        dsimp only
                        rw [r3]
                      have hzget : fsa.data.getD rel []
                          = List.replicate (fs.sb.block_size / DIRENTRY_SIZE) default := by
                        rw [hfsadata]
                        exact getD_set_self _ _ _ _ hreldata
                      have hsb2 : fs2.sb = fs.sb := by
                        rw [← hfs2]
                        by_cases hii : ino.inum ≠ inum
                        · rw [if_pos hii]
                          unfold i_put
                          dsimp only
                          rw [hfsa]
                          dsimp only
                          exact r1
                        · rw [if_neg hii]
                          dsimp only
                          rw [hfsa]
                          exact r1
                      have hdata2 : fs2.data = fs.data.set rel
                          ((List.replicate (fs.sb.block_size / DIRENTRY_SIZE) default).set
                            0 de) := by
                        rw [← hfs2]
                        by_cases hii : ino.inum ≠ inum
                        · rw [if_pos hii]
                          unfold i_put
                          dsimp only
                          rw [hzget, hfsadata, List.set_set]
                        · rw [if_neg hii]
                          unfold i_put
                          dsimp only
                          rw [hzget, hfsadata, List.set_set]
                      have hft2 : ino2.disk_node.ft = FType.TDir := by
                        rw [← hino2]
                        dsimp only
                        rw [r5, hft]
                      have hsize2 : ino2.disk_node.size
                          = fs.sb.block_size * ceilDiv ino.disk_node.size fs.sb.block_size
                            + DIRENTRY_SIZE := by
                        rw [← hino2]
                      have hblocks2 : ino2.disk_node.direct_blocks
                          = ino.disk_node.direct_blocks.set
                            (ceilDiv ino.disk_node.size fs.sb.block_size)
                            (fs.sb.datastart + rel) := by
                        rw [← hino2]
                      have hnb2 : ceilDiv ino2.disk_node.size fs.sb.block_size
                          = ceilDiv ino.disk_node.size fs.sb.block_size + 1 := by
                        rw [hsize2]
                        exact ceilDiv_block_add _ _ hB
                      have helnb : ino2.disk_node.direct_blocks.getD
                            (ceilDiv ino.disk_node.size fs.sb.block_size) 0
                          = fs.sb.datastart + rel := by
                        rw [hblocks2]
                        exact getD_set_self _ _ _ _ (by rw [hblen]; omega)
                      have hentries : fs2.data.getD (fs.sb.datastart + rel
                            - fs.sb.datastart) []
                          = (List.replicate (fs.sb.block_size / DIRENTRY_SIZE) default).set
                            0 de := by
                        rw [show fs.sb.datastart + rel - fs.sb.datastart = rel by omega]
                        rw [hdata2]
                        exact getD_set_self _ _ _ _ hreldata
                      have hscanB : dlScan (fs2.data.getD
                            (ino2.disk_node.direct_blocks.getD
                              (ceilDiv ino.disk_node.size fs.sb.block_size) 0
                              - fs.sb.datastart) []) name ino2.disk_node.size
                          (fs.sb.block_size / DIRENTRY_SIZE) 0 = some (inum, 0) := by
                        rw [helnb, hentries]
                        have hget0 : ((List.replicate (fs.sb.block_size / DIRENTRY_SIZE)
                              default).set 0 de).getD 0 default = de :=
                          getD_set_self _ _ _ _ (by rw [List.length_replicate]; omega)
                        have hfind := dlScan_finds ((List.replicate
                            (fs.sb.block_size / DIRENTRY_SIZE) default).set 0 de)
                          name ino2.disk_node.size 0
                          (by rw [hget0]; exact ⟨by rw [hdeinum]; exact hnum0, hdename⟩)
                          (fun s hs => by omega)
                          (fun s hs => by omega)
                          (fs.sb.block_size / DIRENTRY_SIZE) 0 (by omega) (by omega)
                        rw [Nat.mul_zero] at hfind
                        rw [hfind, hget0, hdeinum]
                      have hbefB : ∀ mm, mm < ceilDiv ino.disk_node.size fs.sb.block_size →
                          (ino2.disk_node.direct_blocks.getD mm 0 = 0 ∨
                            dlScan (fs2.data.getD (ino2.disk_node.direct_blocks.getD mm 0
                              - fs.sb.datastart) []) name ino2.disk_node.size
                              (fs.sb.block_size / DIRENTRY_SIZE) 0 = none) := by
                        intro mm hmm
                        have hmmblocks : ino2.disk_node.direct_blocks.getD mm 0
                            = ino.disk_node.direct_blocks.getD mm 0 := by
                          rw [hblocks2]
                          exact getD_set_ne _ _ _ _ _ (by omega)
                        rw [hmmblocks]
                        by_cases h0 : ino.disk_node.direct_blocks.getD mm 0 = 0
                        · exact Or.inl h0
                        · refine Or.inr ?_
                          obtain ⟨v1, v2, v3, _⟩ := hwf mm (by omega) h0
                          have hnerel : ino.disk_node.direct_blocks.getD mm 0
                              - fs.sb.datastart ≠ rel := by
                            intro hx
                            rw [hx] at v3
                            rw [v3] at hbitrel2
                            cases hbitrel2
                          have hdat : fs2.data.getD (ino.disk_node.direct_blocks.getD mm 0
                                - fs.sb.datastart) []
                              = fs.data.getD (ino.disk_node.direct_blocks.getD mm 0
                                - fs.sb.datastart) [] := by
                            rw [hdata2]
                            exact getD_set_ne _ _ _ _ _ (fun hx => hnerel hx.symm)
                          rw [hdat]
                          have hsn := dlScan_none (fs.data.getD
                              (ino.disk_node.direct_blocks.getD mm 0 - fs.sb.datastart) [])
                            name ino2.disk_node.size
                            (fun s => hnames mm (by omega) h0 s)
                            (fs.sb.block_size / DIRENTRY_SIZE) 0
                          rwa [Nat.mul_zero] at hsn
                      have hpost := dirlookup_post fs2 ino2 name inum
                        (ceilDiv ino.disk_node.size fs.sb.block_size) 0 hft2
                        (by rw [hsb2]; exact hinum_lt)
                        (by rw [hsb2, hnb2]; omega)
                        (by rw [helnb]; omega)
                        (by rw [hsb2]; exact hscanB)
                        (by intro mm hmm; rw [hsb2]; exact hbefB mm hmm)
                      refine ⟨⟨inum, fs2.inodes.getD inum default⟩, ?_, ?_⟩
                      · unfold i_get
                        rw [hsb2, if_neg hinum_lt]
                      · rw [hpost, hsb2, ← ho, Nat.add_zero]

theorem getD_replicate_zero (n : Nat) (idx : Nat) : (List.replicate n 0).getD idx 0 = 0 := by
  by_cases h : idx < n
  · rw [List.getD_eq_getElem _ _ (by simpa using h)]
    simp
  · rw [List.getD_eq_default _ _ (by simpa using h)]

/-- Counterexample for C1 as stated: with `inum = 0` — whose inode in
`c1fs` is a `TFile`, hence "in use" — `dirlink(d, "x", 0)` succeeds and
returns offset 0, but the written entry has `inum = 0`, which `dirlookup`
treats as an empty slot, so the subsequent `dirlookup(d, "x")` fails with
`NoEntryFoundForName` instead of returning `(i_get(0), 0)`. -/
theorem dirlink_dirlookup_inum0 :
    ((dirlink c1fs c1ino ['x'] 0).map fun r => dirlookup r.1 r.2.1 ['x'])
        = .ok (.error .NoEntryFoundForName) ∧
      (dirlink c1fs c1ino ['x'] 0).map (fun r => r.2.2) = .ok 0 :=
  ⟨rfl, rfl⟩

/-- Witness for the amended C1: linking name `x` to inode 2 in the empty
directory of `w1fs` and looking it up again. -/
theorem dirlink_dirlookup_roundtrip_witness :
    ∃ fs2 ino2 o, dirlink w1fs w1ino ['x'] 2 = .ok (fs2, ino2, o) ∧
      ∃ tgt, i_get fs2 2 = .ok tgt ∧ dirlookup fs2 ino2 ['x'] = .ok (tgt, o) := by
  refine ⟨_, _, _, rfl, ?_⟩
  exact dirlink_dirlookup_roundtrip w1fs w1ino ['x'] 2 _ _ _
    (by decide) (by decide) (by decide) (by decide) (by decide) (by decide)
    (by decide) (by decide)
    (by
      intro idx hidx hne
      simp only [w1ino] at hne
      rw [getD_replicate_zero] at hne
      exact absurd rfl hne)
    (by
      intro i1 i2 h1 h2 h3 hne
      simp only [w1ino] at hne
      rw [getD_replicate_zero] at hne
      exact absurd rfl hne)
    (by
      intro idx hidx hne
      simp only [w1ino] at hne
      rw [getD_replicate_zero] at hne
      exact absurd rfl hne)
    rfl

end CplFs
